import Mathlib

/-!
Verification of the CANSLIM backtesting engine and indicator pipeline.

This file gives a shallow embedding of the core of the repository:

* `data/canslim_calculator.py` — the indicator engine
  (`calculate_m`, `compute_c_a_from_financials`, `calculate_nsli`,
  `merge_ca_into_top_stocks`, `calculate_canslim_indicators`);
* `backtesting/backtester.py` — the simulation loop (`run_backtest`,
  `get_price`, `compute_portfolio_value`);
* `utils/calendar_utils.py` — the rebalance scheduler (`get_rebalance_dates`).

Tables are embedded as lists of rows; pandas group/rolling/merge operations
are embedded as the corresponding list transformations; IEEE-754 doubles are
embedded as exact rationals extended with the two infinities and NaN where
the special values are observable.  Logging is embedded as an explicit list
of the warning-level events emitted by `run_backtest`.
-/

namespace Canslim

/-! ### Calendar dates

A calendar date, ordered lexicographically.  The pipeline only ever compares,
sorts and buckets dates, so the arithmetic structure of a date is limited to
its (year, month, day) fields plus the ISO-week computation further below. -/

structure Date where
  year : Int
  month : Int
  day : Int
deriving DecidableEq, Repr

/-- Lexicographic order on dates (the order pandas uses on datetimes). -/
def Date.le (a b : Date) : Prop :=
  a.year < b.year ∨ (a.year = b.year ∧
    (a.month < b.month ∨ (a.month = b.month ∧ a.day ≤ b.day)))

/-- Strict lexicographic order on dates. -/
def Date.lt (a b : Date) : Prop :=
  a.year < b.year ∨ (a.year = b.year ∧
    (a.month < b.month ∨ (a.month = b.month ∧ a.day < b.day)))

instance : DecidableRel Date.le := fun a b => by
  unfold Date.le; infer_instance

instance : DecidableRel Date.lt := fun a b => by
  unfold Date.lt; infer_instance

instance : IsTrans Date Date.le :=
  ⟨by intro a b c; unfold Date.le; omega⟩

instance : IsTotal Date Date.le :=
  ⟨by intro a b; unfold Date.le; omega⟩

instance : IsAntisymm Date Date.le := by
  constructor
  intro a b hab hba
  cases a; cases b
  simp only [Date.le] at hab hba
  simp only [Date.mk.injEq]
  omega

instance : IsTrans Date Date.lt :=
  ⟨by intro a b c; unfold Date.lt; omega⟩

def Date.lt_of_le_of_ne {a b : Date} (h : Date.le a b) (hne : a ≠ b) :
    Date.lt a b := by
  cases a; cases b
  simp only [Date.le] at h
  simp only [Date.lt]
  simp only [ne_eq, Date.mk.injEq, not_and] at hne
  by_contra hc
  simp only [Date.lt, not_or, not_and, not_lt] at hc
  omega

def Date.le_of_lt {a b : Date} (h : Date.lt a b) : Date.le a b := by
  cases a; cases b
  simp only [Date.lt] at h
  simp only [Date.le]
  omega

def Date.le_total' (a b : Date) : Date.le a b ∨ Date.le b a := by
  cases a; cases b; simp only [Date.le]; omega

def Date.not_le {a b : Date} : ¬ Date.le a b ↔ Date.lt b a := by
  cases a; cases b
  simp only [Date.le, Date.lt, not_or, not_and, not_lt]
  omega

def Date.le_trans' {a b c : Date} (h1 : Date.le a b) (h2 : Date.le b c) :
    Date.le a c := Trans.trans h1 h2

def Date.le_refl' (a : Date) : Date.le a a := by
  cases a; simp [Date.le]

/-! ### A model of IEEE-754 doubles

The pandas computations in the pipeline produce infinities and NaN in
observable places (growth ratios with a zero denominator, `pct_change` of a
first row, missing values after a left join).  `FVal` models a double as an
exact rational together with the three special values; signed zeros and
rounding are outside the model (every claim settled here is about special
values or exact algebraic identities, not rounding error). -/

inductive FVal where
  | nan
  | inf
  | ninf
  | fin (q : ℚ)
deriving DecidableEq, Repr

/-- IEEE subtraction on the model. -/
def FVal.fsub : FVal → FVal → FVal
  | nan, _ => nan
  | _, nan => nan
  | inf, inf => nan
  | inf, _ => inf
  | ninf, ninf => nan
  | ninf, _ => ninf
  | fin _, inf => ninf
  | fin _, ninf => inf
  | fin a, fin b => fin (a - b)

/-- IEEE absolute value on the model. -/
def FVal.fabs : FVal → FVal
  | nan => nan
  | inf => inf
  | ninf => inf
  | fin a => fin |a|

/-- IEEE division on the model: `x / 0` is `±∞` for `x ≠ 0` and NaN for
`x = 0`, exactly as numpy/pandas evaluate column divisions. -/
def FVal.fdiv : FVal → FVal → FVal
  | nan, _ => nan
  | _, nan => nan
  | inf, inf | inf, ninf | ninf, inf | ninf, ninf => nan
  | inf, fin b => if b < 0 then ninf else inf
  | ninf, fin b => if b < 0 then inf else ninf
  | fin _, inf | fin _, ninf => fin 0
  | fin a, fin b =>
      if b = 0 then (if a = 0 then nan else if 0 < a then inf else ninf)
      else fin (a / b)

/-- IEEE `≥` as a boolean: any comparison with NaN is `false`. -/
def FVal.fge : FVal → FVal → Bool
  | nan, _ => false
  | _, nan => false
  | inf, _ => true
  | _, inf => false
  | _, ninf => true
  | ninf, _ => false
  | fin a, fin b => decide (b ≤ a)

/-- IEEE `>` as a boolean: any comparison with NaN is `false`. -/
def FVal.fgt : FVal → FVal → Bool
  | nan, _ => false
  | _, nan => false
  | inf, inf => false
  | inf, _ => true
  | _, inf => false
  | ninf, ninf => false
  | fin _, ninf => true
  | ninf, _ => false
  | fin a, fin b => decide (b < a)

/-- `Series.fillna(0)` on a single value. -/
def FVal.fillZero : FVal → FVal
  | nan => fin 0
  | v => v

/-! ### Generic list machinery

`mapState` captures the shape shared by `pct_change`, `shift(1)` and the
`rolling(..., min_periods=1)` transforms: each output element is a function
of the current element and a state accumulated from the earlier elements
only.  All look-ahead-freedom arguments reduce to `mapState_take`. -/

def mapState (f : σ → α → β × σ) : σ → List α → List β
  | _, [] => []
  | s, x :: xs => (f s x).1 :: mapState f (f s x).2 xs

/-! ### ISO week numbers

`get_rebalance_dates` buckets weekly rebalances by
`date.dt.isocalendar().week`.  The ISO week number is computed here from
first principles (proleptic Gregorian calendar), matching the ISO-8601
definition that pandas implements. -/

/-- Gregorian leap-year test. -/
def isLeap (y : Int) : Bool :=
  (y.emod 4 = 0 && y.emod 100 ≠ 0) || y.emod 400 = 0

/-- Cumulative days before the first of each month in a non-leap year. -/
def monthOffset : Int → Int
  | 1 => 0 | 2 => 31 | 3 => 59 | 4 => 90 | 5 => 120 | 6 => 151
  | 7 => 181 | 8 => 212 | 9 => 243 | 10 => 273 | 11 => 304 | 12 => 334
  | _ => 0

/-- Day of the year (1-based). -/
def Date.ordinalDay (d : Date) : Int :=
  monthOffset d.month + (if isLeap d.year && decide (2 < d.month) then 1 else 0) + d.day

/-- Days since 1970-01-01 in the proleptic Gregorian calendar. -/
def daysFromCivil (d : Date) : Int :=
  let y := if d.month ≤ 2 then d.year - 1 else d.year
  let era := (if 0 ≤ y then y else y - 399).ediv 400
  let yoe := y - era * 400
  let mp := (d.month + 9).emod 12
  let doy := (153 * mp + 2).ediv 5 + d.day - 1
  let doe := yoe * 365 + yoe.ediv 4 - yoe.ediv 100 + doy
  era * 146097 + doe - 719468

/-- ISO day of the week: Monday = 1 … Sunday = 7. -/
def Date.isoDow (d : Date) : Int := (daysFromCivil d + 3).emod 7 + 1

/-- Number of ISO weeks in the ISO year `y` (52 or 53). -/
def isoWeeksInYear (y : Int) : Int :=
  if Date.isoDow ⟨y, 1, 1⟩ = 4 ∨ (isLeap y = true ∧ Date.isoDow ⟨y, 1, 1⟩ = 3)
  then 53 else 52

/-- ISO-8601 week number of a date (as in `Timestamp.isocalendar().week`). -/
def Date.isoWeek (d : Date) : Int :=
  let w := (d.ordinalDay - d.isoDow + 10).ediv 7
  if w = 0 then isoWeeksInYear (d.year - 1)
  else if w = 53 ∧ isoWeeksInYear d.year = 52 then 1
  else w

/-! ### Rebalance scheduler

Embedding of `get_rebalance_dates` in `utils/calendar_utils.py`.  The
trading-day calendar is the `date` column of the market-proxy table, given
as a list of dates.  Group keys are pairs ordered lexicographically, as
`groupby(group_cols)` sorts them. -/

/-- Lexicographic order on bucket keys. -/
def keyLe (a b : Int × Int) : Prop := a.1 < b.1 ∨ (a.1 = b.1 ∧ a.2 ≤ b.2)

/-- Strict lexicographic order on bucket keys. -/
def keyLt (a b : Int × Int) : Prop := a.1 < b.1 ∨ (a.1 = b.1 ∧ a.2 < b.2)

instance : DecidableRel keyLe := fun a b => by
  unfold keyLe; infer_instance

instance : DecidableRel keyLt := fun a b => by
  unfold keyLt; infer_instance

instance : IsTrans (Int × Int) keyLe := ⟨by intro a b c; unfold keyLe; omega⟩

instance : IsTotal (Int × Int) keyLe := ⟨by intro a b; unfold keyLe; omega⟩

instance : IsAntisymm (Int × Int) keyLe := by
  constructor
  intro a b hab hba
  cases a; cases b
  simp only [keyLe] at hab hba
  simp only [Prod.mk.injEq]
  omega

/-- Lower-casing of ASCII letters (`str.lower()` on the frequency string). -/
def charLower (c : Char) : Char :=
  if 'A' ≤ c ∧ c ≤ 'Z' then Char.ofNat (c.toNat + 32) else c

/-- `frequency.lower()`. -/
def asciiLower (s : String) : String := String.mk (s.data.map charLower)

/-- Largest date of a list (first element used as the seed; `⟨0,1,1⟩` is a
dummy for the empty list, which never occurs at a use site). -/
def maxDate : List Date → Date
  | [] => ⟨0, 1, 1⟩
  | x :: xs => xs.foldl (fun a b => if Date.le a b then b else a) x

/-- Date-range restriction used by `get_rebalance_dates`. -/
def inRange (startDate endDate : Option Date) (d : Date) : Bool :=
  (match startDate with
   | none => true
   | some sd => decide (Date.le sd d)) &&
  (match endDate with
   | none => true
   | some ed => decide (Date.le d ed))

/-- Bucket key per frequency: weekly = (year, ISO week), monthly =
(year, month), yearly = (year, 0 as a padding component), anything else =
quarterly = (year, (month−1)//3 + 1).  Note the `year` component is the
calendar year of the date (`date.dt.year`) in every case. -/
def freqKey (freq : String) (d : Date) : Int × Int :=
  if freq = "weekly" then (d.year, d.isoWeek)
  else if freq = "monthly" then (d.year, d.month)
  else if freq = "yearly" then (d.year, 0)
  else (d.year, (d.month - 1).ediv 3 + 1)

/-- Embedding of `get_rebalance_dates(market_proxy_df, frequency, start_date,
end_date)`: restrict the calendar to the window, return `[]` if nothing is
left, sort, then either return every trading day (`daily`) or group by the
frequency's bucket key (sorted ascending, as `groupby` sorts its keys) and
take the maximum date of each bucket. -/
def getRebalanceDates (cal : List Date) (freq : String)
    (startDate endDate : Option Date) : List Date :=
  if cal.filter (inRange startDate endDate) = [] then []
  else if asciiLower freq = "daily" then
    (cal.filter (inRange startDate endDate)).insertionSort Date.le
  else
    (((((cal.filter (inRange startDate endDate)).insertionSort Date.le).map
        (freqKey (asciiLower freq))).dedup).insertionSort keyLe).map
      (fun k =>
        maxDate (((cal.filter (inRange startDate endDate)).insertionSort
          Date.le).filter (fun d => freqKey (asciiLower freq) d = k)))

/-! ### Backtest engine

Embedding of `backtesting/backtester.py`.  A price table is a list of rows
(the `date`/`ticker`/`close` columns used by the engine); the strategy is a
function of `(rebalance_date, portfolio_value, data_dict, is_first_rebalance)`
returning an allocation mapping (an association list standing for a Python
dict, so its keys are unique in any run the source can perform); holdings map
tickers to share counts.  `run_backtest`'s warning-level logging is embedded
as an explicit event list (`LogEvent` has one constructor per
`logger.warning` call site in `run_backtest`); debug-level logging is not
modelled.  The two proxy ticker symbols (`MARKET_PROXY`,
`MONEY_MARKET_PROXY` from the configuration) are environment parameters. -/

structure PriceRow where
  date : Date
  ticker : String
  close : ℚ
deriving DecidableEq, Repr

abbrev Table := List PriceRow

abbrev DataDict := List (String × Table)

/-- Allocation mapping and strategy callback signature. -/
abbrev Strategy := Date → ℚ → DataDict → Bool → List (String × ℚ)

/-- Lexicographic comparison of code-point lists (Python string order). -/
def charListLe : List Char → List Char → Bool
  | [], _ => true
  | _ :: _, [] => false
  | a :: as, b :: bs =>
      if a.toNat < b.toNat then true
      else if b.toNat < a.toNat then false
      else charListLe as bs

/-- Python/pandas string order on tickers. -/
def tickerLe (a b : String) : Bool := charListLe a.data b.data

/-- Row order used by `sort_values(["date", "ticker"])`. -/
def rowLe (a b : PriceRow) : Prop :=
  Date.lt a.date b.date ∨ (a.date = b.date ∧ tickerLe a.ticker b.ticker = true)

instance : DecidableRel rowLe := fun a b => by
  unfold rowLe; infer_instance

/-- Python dict assignment `d[k] = v`: overwrite in place or append. -/
def dictInsert (k : String) (v : Table) : DataDict → DataDict
  | [] => [(k, v)]
  | e :: rest => if e.1 = k then (k, v) :: rest else e :: dictInsert k v rest

/-- Python dict lookup `d[k]` (as an `Option`). -/
def dictLookup (k : String) (d : DataDict) : Option Table :=
  (d.find? (fun e => e.1 = k)).map (fun e => e.2)

/-- Warning-level log events of `run_backtest`, one constructor per
`logger.warning` call site: the end-date truncation warning and the
invalid/missing-price warning inside the allocation loop. -/
inductive LogEvent where
  | truncation (requestedEnd actualEnd : Date)
  | invalidPrice (date : Date) (ticker : String)
deriving DecidableEq, Repr

/-- Record of one invocation of the strategy callback. -/
structure StratCall where
  day : Date
  value : ℚ
  dict : DataDict
  isFirst : Bool
  alloc : List (String × ℚ)
deriving DecidableEq, Repr

/-- Mutable state of the simulation loop. -/
structure BTState where
  holdings : List (String × ℚ)
  firstDone : Bool
  records : List (Date × ℚ)
  calls : List StratCall
  logs : List LogEvent
deriving DecidableEq, Repr

/-- Immutable context of the simulation loop: the two (sorted) price tables,
the proxy ticker symbols, the rebalance dates, the starting capital, the
strategy and the data dict handed to it. -/
structure BTEnv where
  marketProxy : String
  moneyMarketProxy : String
  proxies : Table
  topStocks : Table
  rebalanceDates : List Date
  initialFunds : ℚ
  strategy : Strategy
  dict : DataDict

/-- Embedding of `get_price`: proxy tickers are priced from the proxies
table, everything else from the top-stocks table; the close of the first
matching row, or `None`. -/
def getPrice (env : BTEnv) (date : Date) (ticker : String) : Option ℚ :=
  let rows := if ticker = env.marketProxy ∨ ticker = env.moneyMarketProxy
              then env.proxies else env.topStocks
  ((rows.filter (fun r => r.date = date ∧ r.ticker = ticker)).head?).map
    (fun r => r.close)

/-- Embedding of `compute_portfolio_value`: Σ shares × price over held
tickers, a missing price contributing `0`. -/
def computePortfolioValue (env : BTEnv) (date : Date) :
    List (String × ℚ) → ℚ
  | [] => 0
  | e :: rest =>
      (match getPrice env date e.1 with
       | some p => e.2 * p
       | none => 0) + computePortfolioValue env date rest

/-- The allocation loop of `run_backtest`: each ticker with a present,
positive price receives `weight * portfolio_value / price` shares; a ticker
with a missing or non-positive price is skipped with a warning. -/
def allocateHoldings (env : BTEnv) (day : Date) (value : ℚ) :
    List (String × ℚ) → List (String × ℚ) × List LogEvent
  | [] => ([], [])
  | e :: rest =>
      let r := allocateHoldings env day value rest
      match getPrice env day e.1 with
      | some p =>
          if p ≤ 0 then (r.1, LogEvent.invalidPrice day e.1 :: r.2)
          else ((e.1, e.2 * value / p) :: r.1, r.2)
      | none => (r.1, LogEvent.invalidPrice day e.1 :: r.2)

/-- The portfolio value passed to the strategy on a rebalance day: the
mark-to-market value of current holdings, overridden by `initial_funds` if
no rebalance has happened yet. -/
def btValue (env : BTEnv) (st : BTState) (day : Date) : ℚ :=
  if st.firstDone then computePortfolioValue env day st.holdings
  else env.initialFunds

/-- The allocation the strategy returns on a rebalance day. -/
def btAlloc (env : BTEnv) (st : BTState) (day : Date) : List (String × ℚ) :=
  env.strategy day (btValue env st day) env.dict (! st.firstDone)

/-- One iteration of the `for current_date in trading_days` loop: on a
rebalance date, call the strategy and replace the holdings wholesale; on
every day, append the day's mark-to-market value to the output series. -/
def stepDay (env : BTEnv) (st : BTState) (day : Date) : BTState :=
  if day ∈ env.rebalanceDates then
    let v := btValue env st day
    let alloc := btAlloc env st day
    let hl := allocateHoldings env day v alloc
    { holdings := hl.1,
      firstDone := true,
      records := st.records ++
        [(day, computePortfolioValue env day hl.1)],
      calls := st.calls ++ [⟨day, v, env.dict, ! st.firstDone, alloc⟩],
      logs := st.logs ++ hl.2 }
  else
    { st with records := st.records ++
        [(day, computePortfolioValue env day st.holdings)] }

/-- The clipped end date: `min(rebalance_dates[-1], proxies_df["date"].max())`. -/
def btEndDate (proxies : Table) (rd0 : Date) (rest : List Date) : Date :=
  let endReq := (rd0 :: rest).getLast (List.cons_ne_nil rd0 rest)
  let maxAvail := maxDate ((proxies.insertionSort rowLe).map (fun r => r.date))
  if Date.lt maxAvail endReq then maxAvail else endReq

/-- The simulated trading days: the distinct proxy-table dates inside
`[rebalance_dates[0], clipped end]`, ascending. -/
def btTradingDays (proxies : Table) (rd0 : Date) (rest : List Date) : List Date :=
  ((((proxies.insertionSort rowLe).filter (fun r =>
      Date.le rd0 r.date ∧ Date.le r.date (btEndDate proxies rd0 rest))).map
    (fun r => r.date)).dedup).insertionSort Date.le

/-- Result of a run: the daily value series, plus the embedded
instrumentation (strategy-call trace and warning log). -/
structure BTResult where
  records : List (Date × ℚ)
  calls : List StratCall
  logs : List LogEvent
deriving DecidableEq, Repr

/-- Embedding of `run_backtest`.  The caller's `data_dict` gets the two
price-table arguments stored under `"proxies_df"`/`"top_stocks_df"` before
anything else happens; the tables are then sorted, the trading days
enumerated, and the day loop folded.  An empty `rebalance_dates` list makes
the source raise an `IndexError`, embedded as `none`. -/
def runBacktest (strategy : Strategy) (proxiesDf topStocksDf : Table)
    (rebalanceDates : List Date) (initialFunds : ℚ) (dataDict : DataDict)
    (marketProxy moneyMarketProxy : String) : Option BTResult :=
  match rebalanceDates with
  | [] => none
  | rd0 :: rest =>
      let dict := dictInsert "top_stocks_df" topStocksDf
        (dictInsert "proxies_df" proxiesDf dataDict)
      let env : BTEnv :=
        ⟨marketProxy, moneyMarketProxy, proxiesDf.insertionSort rowLe,
          topStocksDf.insertionSort rowLe, rd0 :: rest, initialFunds,
          strategy, dict⟩
      let endReq := (rd0 :: rest).getLast (List.cons_ne_nil rd0 rest)
      let maxAvail := maxDate ((proxiesDf.insertionSort rowLe).map
        (fun r => r.date))
      let truncLogs := if Date.lt maxAvail endReq
        then [LogEvent.truncation endReq maxAvail] else []
      let final := (btTradingDays proxiesDf rd0 rest).foldl (stepDay env)
        ⟨[], false, [], [], truncLogs⟩
      some ⟨final.records.insertionSort (fun a b => Date.le a.1 b.1),
        final.calls, final.logs⟩

/-! ### Indicator engine

Embedding of `data/canslim_calculator.py` at the granularity of one ticker:
`groupby("ticker")` followed by per-group `rolling`/`pct_change`/`shift`
transforms is exactly per-ticker list processing of the date-sorted group,
so the embedding takes one ticker's price rows, the market-proxy rows, and
one ticker's quarterly/annual filings.  Price and volume inputs are finite
doubles (embedded as ℚ); computed returns and growth ratios live in `FVal`
since `pct_change`/growth division can produce `±∞`/NaN. -/

structure MBar where
  date : Date
  close : ℚ
deriving DecidableEq, Repr

structure SBar where
  date : Date
  openPrice : ℚ
  closePrice : ℚ
  volume : ℚ
deriving DecidableEq, Repr

/-- Date order on market rows (`sort_values("date")`). -/
def mbarLe (a b : MBar) : Prop := Date.le a.date b.date

instance : DecidableRel mbarLe := fun a b => by unfold mbarLe; infer_instance

instance : IsTrans MBar mbarLe := ⟨fun _ _ _ => Date.le_trans'⟩

instance : IsTotal MBar mbarLe := ⟨fun a b => Date.le_total' a.date b.date⟩

/-- Date order on one ticker's stock rows (`sort_values(["ticker","date"])`
restricted to the group). -/
def sbarLe (a b : SBar) : Prop := Date.le a.date b.date

instance : DecidableRel sbarLe := fun a b => by unfold sbarLe; infer_instance

instance : IsTrans SBar sbarLe := ⟨fun _ _ _ => Date.le_trans'⟩

instance : IsTotal SBar sbarLe := ⟨fun a b => Date.le_total' a.date b.date⟩

/-- `rolling(w, min_periods=1)` windows, newest element first. -/
def rollWindows (w : Nat) (l : List ℚ) : List (List ℚ) :=
  mapState (fun prev c => (c :: prev, (c :: prev).take (w - 1))) [] l

/-- `rolling(w, min_periods=1).mean()`. -/
def rollMean (w : Nat) (l : List ℚ) : List ℚ :=
  (rollWindows w l).map (fun win => win.sum / (win.length : ℚ))

/-- `rolling(w, min_periods=1).max()`. -/
def rollMax (w : Nat) (l : List ℚ) : List ℚ :=
  (rollWindows w l).map (fun win => win.foldl max (win.headD 0))

/-- `Series.pct_change().fillna(0)`: current/previous − 1, the leading NaN
(and any 0/0 NaN) replaced by 0. -/
def pctChangeFilled (l : List ℚ) : List FVal :=
  mapState (fun prev c =>
    ((((FVal.fin c).fdiv prev).fsub (FVal.fin 1)).fillZero, FVal.fin c))
    FVal.nan l

/-- Output row of `calculate_m`: the two moving averages of the market close
and the market-direction flag `M = 50_MA > 200_MA`. -/
structure MRow where
  date : Date
  close : ℚ
  ma50 : ℚ
  ma200 : ℚ
  m : Bool
deriving DecidableEq, Repr

def buildMRows : List MBar → List ℚ → List ℚ → List MRow
  | b :: bs, x :: xs, y :: ys =>
      ⟨b.date, b.close, x, y, decide (y < x)⟩ :: buildMRows bs xs ys
  | _, _, _ => []

/-- Embedding of `calculate_m`. -/
def calcM (market : List MBar) : List MRow :=
  let s := market.insertionSort mbarLe
  let closes := s.map (fun b => b.close)
  buildMRows s (rollMean 50 closes) (rollMean 200 closes)

/-- One step of the market-return computation: emit this row's date with
`close/prev_close − 1` (NaN filled to 0), carrying the close forward. -/
def mretStep (prev : FVal) (b : MBar) : (Date × FVal) × FVal :=
  ((b.date, (((FVal.fin b.close).fdiv prev).fsub (FVal.fin 1)).fillZero),
    FVal.fin b.close)

/-- The market-return series (`market_only["close"].pct_change().fillna(0)`)
keyed by date, for the left merge into the stock rows. -/
def marketReturns (market : List MBar) : List (Date × FVal) :=
  mapState mretStep FVal.nan (market.insertionSort mbarLe)

/-- The left merge `merge(market_only[["date","market_return"]], on="date",
how="left")` for a single stock row: the market return on that date, NaN
when the market table has no row there. -/
def marketRetOn (mret : List (Date × FVal)) (d : Date) : FVal :=
  match mret.find? (fun e => e.1 = d) with
  | some e => e.2
  | none => FVal.nan

/-- Output row of `calculate_nsli`. -/
structure NRow where
  date : Date
  openPrice : ℚ
  closePrice : ℚ
  volume : ℚ
  stockRet : FVal
  marketRet : FVal
  high52 : ℚ
  volAvg50 : ℚ
  n : Bool
  s : Bool
  l : Bool
  i : Bool
deriving DecidableEq, Repr

def buildNRows (mret : List (Date × FVal)) :
    List SBar → List FVal → List ℚ → List ℚ → List NRow
  | b :: bs, r :: rs, h :: hs, v :: vs =>
      ⟨b.date, b.openPrice, b.closePrice, b.volume, r, marketRetOn mret b.date,
        h, v,
        decide (h ≤ b.closePrice),
        decide (v * (3/2) ≤ b.volume),
        r.fgt (marketRetOn mret b.date),
        decide (b.openPrice < b.closePrice) && decide (v * (3/2) < b.volume)⟩
        :: buildNRows mret bs rs hs vs
  | _, _, _, _ => []

/-- Embedding of `calculate_nsli` for one ticker: `stock_return` via
`pct_change().fillna(0)`, `market_return` merged by date, `N` as
close ≥ 252-day rolling max, `S` as volume ≥ 1.5 × 50-day mean volume, `L`
as `stock_return > market_return`, `I` as close > open and
volume > 1.5 × 50-day mean volume. -/
def calcNSLI (stocks : List SBar) (market : List MBar) : List NRow :=
  let s := stocks.insertionSort sbarLe
  let closes := s.map (fun b => b.closePrice)
  buildNRows (marketReturns market) s (pctChangeFilled closes)
    (rollMax 252 closes) (rollMean 50 (s.map (fun b => b.volume)))

/-- One quarterly filing of a ticker.  `fiscalPeriod` stands for the
`fiscal_period` label, numbered in the label order pandas sorts by. -/
structure QRow where
  fiscalPeriod : Nat
  fiscalYear : Int
  eps : ℚ
  endDate : Date
deriving DecidableEq, Repr

/-- One annual filing of a ticker. -/
structure ARow where
  fiscalYear : Int
  eps : ℚ
  endDate : Date
deriving DecidableEq, Repr

/-- `sort_values(["ticker", "fiscal_period", "fiscal_year"])` within one
ticker. -/
def qLe (a b : QRow) : Prop :=
  a.fiscalPeriod < b.fiscalPeriod ∨
    (a.fiscalPeriod = b.fiscalPeriod ∧ a.fiscalYear ≤ b.fiscalYear)

instance : DecidableRel qLe := fun a b => by unfold qLe; infer_instance

instance : IsTrans QRow qLe := ⟨by intro a b c; unfold qLe; omega⟩

instance : IsTotal QRow qLe := ⟨by intro a b; unfold qLe; omega⟩

/-- `sort_values(["ticker", "fiscal_year"])` within one ticker. -/
def aLe (a b : ARow) : Prop := a.fiscalYear ≤ b.fiscalYear

instance : DecidableRel aLe := fun a b => by unfold aLe; infer_instance

instance : IsTrans ARow aLe := ⟨by intro a b c; unfold aLe; omega⟩

instance : IsTotal ARow aLe := ⟨by intro a b; unfold aLe; omega⟩

/-- The year-over-year growth screen
`((eps − prev_year_eps) / prev_year_eps.abs()) ≥ thresh`, with `prev` the
shifted value (NaN for the first row of a group). -/
def growthOk (thresh : ℚ) (prev : FVal) (eps : ℚ) : Bool :=
  (((FVal.fin eps).fsub prev).fdiv prev.fabs).fge (FVal.fin thresh)

/-- `groupby(...).shift(1)` plus the growth screen along one group, sorted:
each `(eps, end_date)` row yields `(end_date, flag)` against the previous
row's eps. -/
def yoyFlags (thresh : ℚ) (l : List (ℚ × Date)) : List (Date × Bool) :=
  mapState (fun prev e => ((e.2, growthOk thresh prev e.1), FVal.fin e.1))
    FVal.nan l

/-- Quarterly C flags of one ticker, in the row order of the
(fiscal_period, fiscal_year)-sorted frame: groups iterated in fiscal-period
order, each group sorted by fiscal year. -/
def qFlags (thresh : ℚ) (q : List QRow) : List (Date × Bool) :=
  let sorted := q.insertionSort qLe
  (((sorted.map (fun r => r.fiscalPeriod)).dedup).insertionSort (· ≤ ·)).flatMap
    (fun p => yoyFlags thresh
      ((sorted.filter (fun r => r.fiscalPeriod = p)).map
        (fun r => (r.eps, r.endDate))))

/-- Annual A flags of one ticker, in fiscal-year order. -/
def aFlags (thresh : ℚ) (a : List ARow) : List (Date × Bool) :=
  yoyFlags thresh ((a.insertionSort aLe).map (fun r => (r.eps, r.endDate)))

/-- `drop_duplicates(["ticker", "end_date"])` (keep the first occurrence),
keyed by date. -/
def dedupByDate (seen : List Date) : List (Date × Bool) → List (Date × Bool)
  | [] => []
  | e :: rest =>
      if e.1 ∈ seen then dedupByDate seen rest
      else e :: dedupByDate (e.1 :: seen) rest

/-- One row of the merged C/A frame. -/
structure CARow where
  endDate : Date
  c : Bool
  a : Bool
deriving DecidableEq, Repr

/-- End-date order on C/A rows (`sort_values(["ticker", "end_date"])`). -/
def caLe (x y : CARow) : Prop := Date.le x.endDate y.endDate

instance : DecidableRel caLe := fun a b => by unfold caLe; infer_instance

instance : IsTrans CARow caLe := ⟨fun _ _ _ => Date.le_trans'⟩

instance : IsTotal CARow caLe := ⟨fun a b => Date.le_total' a.endDate b.endDate⟩

def lookupFlag (l : List (Date × Bool)) (d : Date) : Bool :=
  match l.find? (fun e => e.1 = d) with
  | some e => e.2
  | none => false

/-- Embedding of `compute_c_a_from_financials` for one ticker: C over
quarterly filings grouped by fiscal period, A over annual filings, each
deduplicated by end date, outer-merged on end date (pandas sorts the outer
join keys ascending) with missing sides filled `False`. -/
def caOfTicker (cThresh aThresh : ℚ) (q : List QRow) (a : List ARow) :
    List CARow :=
  let qca := dedupByDate [] (qFlags cThresh q)
  let aca := dedupByDate [] (aFlags aThresh a)
  (((qca.map (fun e => e.1) ++ aca.map (fun e => e.1)).dedup).insertionSort
    Date.le).map (fun dt => ⟨dt, lookupFlag qca dt, lookupFlag aca dt⟩)

/-- `merge_asof(..., left_on="date", right_on="end_date",
direction="backward")` for one price date over an end-date-sorted C/A frame:
the last row whose end date is on or before the price date. -/
def asofCA (ca : List CARow) (d : Date) : Option CARow :=
  ca.foldl (fun acc e => if Date.le e.endDate d then some e else acc) none

/-- The C flag a price row dated `dt` receives from the C/A frame `ca`
(`False` when the ticker has no filings or no filing is on or before
`dt`). -/
def cFlagOf (ca : List CARow) (dt : Date) : Bool :=
  if ca = [] then false
  else
    match asofCA (ca.insertionSort caLe) dt with
    | some e => e.c
    | none => false

/-- Same as `cFlagOf`, for A. -/
def aFlagOf (ca : List CARow) (dt : Date) : Bool :=
  if ca = [] then false
  else
    match asofCA (ca.insertionSort caLe) dt with
    | some e => e.a
    | none => false

/-- Fully enriched row: NSLI signals plus the as-of-merged C/A flags and
the combined `CANSLI_all = C ∧ A ∧ N ∧ S ∧ L ∧ I`. -/
structure FRow where
  date : Date
  stockRet : FVal
  marketRet : FVal
  n : Bool
  s : Bool
  l : Bool
  i : Bool
  c : Bool
  a : Bool
  cansliAll : Bool
deriving DecidableEq, Repr

/-- Embedding of `merge_ca_into_top_stocks` for one ticker (which consumes
`calculate_nsli`'s already date-sorted rows), plus the `CANSLI_all` column
computed at the end of `calculate_canslim_indicators`. -/
def mergeCA (rows : List NRow) (ca : List CARow) : List FRow :=
  rows.map (fun r =>
    ⟨r.date, r.stockRet, r.marketRet, r.n, r.s, r.l, r.i,
      cFlagOf ca r.date, aFlagOf ca r.date,
      cFlagOf ca r.date && aFlagOf ca r.date && r.n && r.s && r.l && r.i⟩)

/-- Per-ticker composition performed by `calculate_canslim_indicators`:
N/S/L/I from the price rows, C/A from the filings, the backward as-of merge
of C/A onto price dates, and the combined flag.  The two thresholds are the
C and A growth thresholds (0.1 in the source). -/
def enrichTicker (cThresh aThresh : ℚ) (market : List MBar)
    (stocks : List SBar) (q : List QRow) (a : List ARow) : List FRow :=
  mergeCA (calcNSLI stocks market) (caOfTicker cThresh aThresh q a)

/-- Property asserted by claim C7: `daily` returns exactly the trading days
of the restricted window; `quarterly` returns at most one date per
(year, quarter) bucket, namely the bucket's maximum trading day; an empty
restricted window yields an empty schedule. -/
def schedulerCoverage (cal : List Date) (s e : Option Date) : Prop :=
  (getRebalanceDates cal "daily" s e = cal.filter (inRange s e)) ∧
  ((∀ x ∈ getRebalanceDates cal "quarterly" s e,
      x ∈ cal.filter (inRange s e) ∧
      ∀ y ∈ cal.filter (inRange s e),
        freqKey "quarterly" y = freqKey "quarterly" x → Date.le y x) ∧
   (∀ x ∈ getRebalanceDates cal "quarterly" s e,
      ∀ y ∈ getRebalanceDates cal "quarterly" s e,
        freqKey "quarterly" x = freqKey "quarterly" y → x = y)) ∧
  (cal.filter (inRange s e) = [] →
    getRebalanceDates cal "daily" s e = [] ∧
    getRebalanceDates cal "quarterly" s e = [])

/-- Property of the amended claim C8: weekly scheduling buckets trading days
by (calendar year, ISO week) and returns the last trading day of each bucket
present in the restricted calendar — every returned date is the maximum
trading day of its bucket, distinct returned dates lie in distinct buckets,
every bucket occupied by some trading day of the restricted calendar is
represented in the schedule, and the schedule is listed in strictly
ascending order of the bucket key (which coincides with ascending date order
except across calendar-year boundaries where early-January days belong to
ISO week 52/53). -/
def weeklyBucketing (cal : List Date) (s e : Option Date) : Prop :=
  (∀ x ∈ getRebalanceDates cal "weekly" s e,
      x ∈ cal.filter (inRange s e) ∧
      ∀ y ∈ cal.filter (inRange s e),
        (y.year, y.isoWeek) = (x.year, x.isoWeek) → Date.le y x) ∧
  (∀ x ∈ getRebalanceDates cal "weekly" s e,
      ∀ y ∈ getRebalanceDates cal "weekly" s e,
        (x.year, x.isoWeek) = (y.year, y.isoWeek) → x = y) ∧
  (∀ y ∈ cal.filter (inRange s e),
      ∃ x ∈ getRebalanceDates cal "weekly" s e,
        (x.year, x.isoWeek) = (y.year, y.isoWeek)) ∧
  (getRebalanceDates cal "weekly" s e).Sorted
    (fun a b => keyLt (a.year, a.isoWeek) (b.year, b.isoWeek))

/-- Property asserted by claim C2 about a run's strategy-call trace: the
first call receives exactly `initial_funds`, and every call made once the
first rebalance is done receives the mark-to-market value of the holdings. -/
def firstRebalanceOverride (res : BTResult) (rd0 : Date)
    (initialFunds : ℚ) : Prop :=
  (∃ c tail, res.calls = c :: tail ∧ c.day = rd0 ∧
    c.value = initialFunds ∧ c.isFirst = true) ∧
  (∀ (env : BTEnv) (st : BTState) (day : Date), st.firstDone = true →
    day ∈ env.rebalanceDates →
    ∀ c ∈ (stepDay env st day).calls, c ∉ st.calls →
      c.value = computePortfolioValue env day st.holdings ∧
      c.isFirst = false)

/-- Does this ticker have a present, strictly positive price on this day? -/
def hasPosPrice (env : BTEnv) (day : Date) (t : String) : Bool :=
  match getPrice env day t with
  | some p => decide (0 < p)
  | none => false

/-- Price with default 0 (only used where a positive price is known). -/
def priceOr0 (env : BTEnv) (day : Date) (t : String) : ℚ :=
  (getPrice env day t).getD 0

/-- What claim C5 asserts about one merged row: no filings (or none on or
before the row's date) give `C = A = False`; otherwise the filing in force —
the one whose end date is on or before the row's date with the next filing's
end date strictly after it — determines both flags. -/
def epsAsofSpec (ca : List CARow) (r : FRow) : Prop :=
  (ca = [] → r.c = false ∧ r.a = false) ∧
  (∀ i : Nat, ∀ hi : i < ca.length,
    Date.le (ca.get ⟨i, hi⟩).endDate r.date →
    (∀ hj : i + 1 < ca.length, Date.lt r.date (ca.get ⟨i + 1, hj⟩).endDate) →
    r.c = (ca.get ⟨i, hi⟩).c ∧ r.a = (ca.get ⟨i, hi⟩).a) ∧
  ((∀ f ∈ ca, Date.lt r.date f.endDate) → r.c = false ∧ r.a = false)

/-- End-date monotonicity along each year-over-year comparison group of the
quarterly filings: within every fiscal-period group (in fiscal-year order),
reporting end dates never decrease.  Real filing data satisfies this; the
no-look-ahead property fails without it (see the counterexample). -/
def qGroupMonotone (q : List QRow) : Prop :=
  ∀ p ∈ q.map (fun r => r.fiscalPeriod),
    ((q.insertionSort qLe).filter (fun r => r.fiscalPeriod = p)).Pairwise
      (fun x y => Date.le x.endDate y.endDate)

/-- End-date monotonicity of the annual filings in fiscal-year order. -/
def aMonotone (a : List ARow) : Prop :=
  (a.insertionSort aLe).Pairwise (fun x y => Date.le x.endDate y.endDate)

instance : DecidableRel (fun x y : QRow => Date.le x.endDate y.endDate) :=
  fun x y => inferInstanceAs (Decidable (Date.le x.endDate y.endDate))

instance : DecidableRel (fun x y : ARow => Date.le x.endDate y.endDate) :=
  fun x y => inferInstanceAs (Decidable (Date.le x.endDate y.endDate))

instance (q : List QRow) : Decidable (qGroupMonotone q) :=
  inferInstanceAs (Decidable (∀ p ∈ q.map (fun r : QRow => r.fiscalPeriod),
    ((q.insertionSort qLe).filter
      (fun r : QRow => r.fiscalPeriod = p)).Pairwise
      (fun x y : QRow => Date.le x.endDate y.endDate)))

instance (a : List ARow) : Decidable (aMonotone a) :=
  inferInstanceAs (Decidable ((a.insertionSort aLe).Pairwise
    (fun x y : ARow => Date.le x.endDate y.endDate)))

theorem mapState_take (f : σ → α → β × σ) :
    ∀ (s : σ) (l : List α) (k : Nat),
      (mapState f s l).take k = mapState f s (l.take k)
  | _, [], _ => by simp [mapState]
  | s, x :: xs, 0 => by simp [mapState]
  | s, x :: xs, k + 1 => by
      simp only [mapState, List.take_succ_cons]
      rw [mapState_take]

theorem mapState_length (f : σ → α → β × σ) :
    ∀ (s : σ) (l : List α), (mapState f s l).length = l.length
  | _, [] => rfl
  | s, x :: xs => by simp [mapState, mapState_length]

/-- A fold that only updates its accumulator on elements satisfying `c` is a
fold over the `c`-filtered list. -/
theorem foldl_filter_of_skip (c : α → Bool) (g : β → α → β) :
    ∀ (l : List α) (init : β),
      l.foldl (fun acc x => if c x then g acc x else acc) init =
        (l.filter c).foldl g init
  | [], _ => rfl
  | x :: xs, init => by
      by_cases hx : c x = true
      · simp [List.filter_cons, hx, foldl_filter_of_skip c g xs]
      · simp only [Bool.not_eq_true] at hx
        simp [List.filter_cons, hx, foldl_filter_of_skip c g xs]

/-- `find?` only inspects elements satisfying the predicate, so filtering by
any weaker predicate does not change the result. -/
theorem find?_filter_of_imp (p q : α → Bool) (h : ∀ x, p x = true → q x = true) :
    ∀ l : List α, (l.filter q).find? p = l.find? p
  | [] => rfl
  | x :: xs => by
      by_cases hq : q x = true
      · simp only [List.filter_cons, hq, if_true]
        by_cases hp : p x = true
        · simp [List.find?_cons, hp]
        · simp only [Bool.not_eq_true] at hp
          simp [List.find?_cons, hp, find?_filter_of_imp p q h xs]
      · have hp : p x = false := by
          by_contra hc
          simp only [Bool.not_eq_false] at hc
          exact hq (h x hc)
        simp only [Bool.not_eq_true] at hq
        simp [List.filter_cons, hq, List.find?_cons, hp,
          find?_filter_of_imp p q h xs]

/-- On a sorted list, filtering by a downward-closed predicate is taking the
initial segment satisfying it. -/
theorem filter_eq_takeWhile_of_sorted {r : α → α → Prop} (p : α → Bool)
    (hmono : ∀ x y, r x y → p y = true → p x = true) :
    ∀ l : List α, l.Sorted r → l.filter p = l.takeWhile p
  | [], _ => rfl
  | x :: xs, h => by
      have hxs : xs.Sorted r := h.tail
      by_cases hx : p x = true
      · simp [List.filter_cons, List.takeWhile_cons, hx,
          filter_eq_takeWhile_of_sorted p hmono xs hxs]
      · have hnone : ∀ y ∈ xs, ¬ p y = true := by
          intro y hy hpy
          exact hx (hmono x y ((List.sorted_cons.mp h).1 y hy) hpy)
        simp only [Bool.not_eq_true] at hx
        simp only [List.filter_cons, hx, Bool.false_eq_true, if_false,
          List.takeWhile_cons, hx]
        rw [List.filter_eq_nil_iff.mpr ?_]
        intro a ha
        simpa using hnone a ha

/-- `takeWhile` is the prefix of the list of its own length. -/
theorem take_length_takeWhile (p : α → Bool) :
    ∀ l : List α, l.take (l.takeWhile p).length = l.takeWhile p
  | [] => rfl
  | x :: xs => by
      by_cases hx : p x = true
      · simp [List.takeWhile_cons, hx, take_length_takeWhile p xs]
      · simp only [Bool.not_eq_true] at hx
        simp [List.takeWhile_cons, hx]

/-- Inserting an element bounded below everything in the list puts it at the
head. -/
theorem orderedInsert_eq_cons {r : α → α → Prop} [DecidableRel r] (x : α) :
    ∀ l : List α, (∀ y ∈ l, r x y) → l.orderedInsert r x = x :: l
  | [], _ => rfl
  | y :: ys, h => by
      simp [List.orderedInsert, if_pos (h y (List.mem_cons_self y ys))]

/-- Filtering commutes with ordered insertion into a sorted list. -/
theorem filter_orderedInsert {r : α → α → Prop} [DecidableRel r] [IsTrans α r]
    (p : α → Bool) (x : α) :
    ∀ l : List α, l.Sorted r →
      (l.orderedInsert r x).filter p =
        if p x then (l.filter p).orderedInsert r x else l.filter p
  | [], _ => by
      by_cases hx : p x = true <;>
        simp [List.orderedInsert, List.filter_cons, hx]
  | y :: ys, h => by
      have hys : ys.Sorted r := h.tail
      by_cases hr : r x y
      · rw [List.orderedInsert, if_pos hr]
        by_cases hx : p x = true
        · by_cases hy : p y = true
          · simp [List.filter_cons, hx, hy, List.orderedInsert, hr]
          · simp only [Bool.not_eq_true] at hy
            have hall : ∀ z ∈ ys.filter p, r x z := by
              intro z hz
              exact Trans.trans hr ((List.sorted_cons.mp h).1 z
                (List.mem_of_mem_filter hz))
            simp [List.filter_cons, hx, hy,
              orderedInsert_eq_cons x (ys.filter p) hall]
        · simp only [Bool.not_eq_true] at hx
          simp [List.filter_cons, hx]
      · rw [List.orderedInsert, if_neg hr]
        by_cases hy : p y = true
        · simp only [List.filter_cons, hy, if_true]
          rw [filter_orderedInsert p x ys hys]
          by_cases hx : p x = true
          · simp only [hx, if_true]
            rw [List.orderedInsert, if_neg hr]
          · simp [hx]
        · simp only [Bool.not_eq_true] at hy
          simp only [List.filter_cons, hy, Bool.false_eq_true, if_false]
          exact filter_orderedInsert p x ys hys

/-- Filtering commutes with (stable) insertion sort. -/
theorem filter_insertionSort {r : α → α → Prop} [DecidableRel r]
    [IsTotal α r] [IsTrans α r] (p : α → Bool) :
    ∀ l : List α, (l.insertionSort r).filter p = (l.filter p).insertionSort r
  | [] => rfl
  | x :: xs => by
      rw [List.insertionSort,
        filter_orderedInsert p x _ (List.sorted_insertionSort r xs),
        filter_insertionSort p xs]
      by_cases hx : p x = true
      · simp [List.filter_cons, hx, List.insertionSort]
      · simp only [Bool.not_eq_true] at hx
        simp [List.filter_cons, hx]

/-- Filtering commutes with deduplication (both keep first occurrences). -/
theorem filter_dedup [DecidableEq α] (p : α → Bool) :
    ∀ l : List α, (l.dedup).filter p = (l.filter p).dedup
  | [] => rfl
  | x :: xs => by
      by_cases hmem : x ∈ xs
      · rw [List.dedup_cons_of_mem hmem]
        by_cases hx : p x = true
        · have : x ∈ xs.filter p := List.mem_filter.mpr ⟨hmem, hx⟩
          rw [List.filter_cons, if_pos (by simp [hx]),
            List.dedup_cons_of_mem this]
          exact filter_dedup p xs
        · simp only [Bool.not_eq_true] at hx
          rw [List.filter_cons, if_neg (by simp [hx])]
          exact filter_dedup p xs
      · rw [List.dedup_cons_of_not_mem hmem]
        by_cases hx : p x = true
        · have : x ∉ xs.filter p := fun hc => hmem (List.mem_of_mem_filter hc)
          rw [List.filter_cons, if_pos (by simp [hx]), List.filter_cons,
            if_pos (by simp [hx]), List.dedup_cons_of_not_mem this]
          rw [filter_dedup p xs]
        · simp only [Bool.not_eq_true] at hx
          rw [List.filter_cons, if_neg (by simp [hx]), List.filter_cons,
            if_neg (by simp [hx])]
          exact filter_dedup p xs

theorem keyLt_of_le_of_ne {a b : Int × Int} (h : keyLe a b) (hne : a ≠ b) :
    keyLt a b := by
  cases a; cases b
  simp only [keyLe] at h
  simp only [ne_eq, Prod.mk.injEq, not_and] at hne
  simp only [keyLt]
  by_contra hc
  simp only [not_or, not_and, not_lt] at hc
  omega

theorem foldl_maxDate_mem :
    ∀ (xs : List Date) (a : Date),
      xs.foldl (fun a b => if Date.le a b then b else a) a ∈ a :: xs
  | [], a => by simp
  | x :: xs, a => by
      simp only [List.foldl_cons]
      by_cases h : Date.le a x
      · simp only [if_pos h]
        have := foldl_maxDate_mem xs x
        simp only [List.mem_cons] at this ⊢
        tauto
      · simp only [if_neg h]
        have := foldl_maxDate_mem xs a
        simp only [List.mem_cons] at this ⊢
        tauto

theorem le_foldl_maxDate :
    ∀ (xs : List Date) (a : Date) (y : Date), y ∈ a :: xs →
      Date.le y (xs.foldl (fun a b => if Date.le a b then b else a) a)
  | [], a, y, hy => by
      simp only [List.mem_cons, List.not_mem_nil, or_false] at hy
      subst hy
      simp [Date.le_refl']
  | x :: xs, a, y, hy => by
      simp only [List.foldl_cons]
      have ham : Date.le a (if Date.le a x then x else a) := by
        by_cases h : Date.le a x
        · simp [h]
        · simp [h, Date.le_refl']
      have hxm : Date.le x (if Date.le a x then x else a) := by
        by_cases h : Date.le a x
        · simp [h, Date.le_refl']
        · simp only [if_neg h]
          exact (Date.le_total' a x).resolve_left h
      rcases List.mem_cons.mp hy with h1 | h2
      · refine Date.le_trans' (by rw [h1]; exact ham) ?_
        exact le_foldl_maxDate xs _ _ (List.mem_cons_self _ xs)
      · rcases List.mem_cons.mp h2 with h3 | h4
        · refine Date.le_trans' (by rw [h3]; exact hxm) ?_
          exact le_foldl_maxDate xs _ _ (List.mem_cons_self _ xs)
        · exact le_foldl_maxDate xs _ y (List.mem_cons_of_mem _ h4)

theorem maxDate_mem {l : List Date} (h : l ≠ []) : maxDate l ∈ l := by
  cases l with
  | nil => exact absurd rfl h
  | cons x xs => exact foldl_maxDate_mem xs x

theorem le_maxDate {l : List Date} {y : Date} (hy : y ∈ l) :
    Date.le y (maxDate l) := by
  cases l with
  | nil => cases hy
  | cons x xs => exact le_foldl_maxDate xs x y hy

/-- In a sorted list, an element below the whole list is the head. -/
theorem head?_eq_of_sorted_of_mem {r : α → α → Prop} [IsAntisymm α r]
    {l : List α} (hs : l.Sorted r) {a : α} (ha : a ∈ l)
    (hall : ∀ x ∈ l, r a x) : l.head? = some a := by
  cases l with
  | nil => cases ha
  | cons x xs =>
      rcases List.mem_cons.mp ha with h | h
      · simp [h]
      · have hxa : r x a := (List.sorted_cons.mp hs).1 a h
        have hax : r a x := hall x (List.mem_cons_self x xs)
        simp [antisymm hax hxa]

/-- The maximum of each bucket belongs to the list, carries the bucket's
key, and dominates every list element of the same bucket. -/
theorem bucket_max_spec (key : Date → Int × Int) (l : List Date)
    (k : Int × Int) (hk : k ∈ (l.map key).dedup) :
    maxDate (l.filter (fun d => key d = k)) ∈ l ∧
    key (maxDate (l.filter (fun d => key d = k))) = k ∧
    ∀ y ∈ l, key y = k → Date.le y (maxDate (l.filter (fun d => key d = k))) := by
  obtain ⟨y0, hy0, hkey⟩ := List.mem_map.mp (List.mem_dedup.mp hk)
  have hne : l.filter (fun d => key d = k) ≠ [] := by
    intro hc
    have hmem : y0 ∈ l.filter (fun d => key d = k) :=
      List.mem_filter.mpr ⟨hy0, by simp [hkey]⟩
    rw [hc] at hmem
    cases hmem
  have hmem := maxDate_mem hne
  have hmf := List.mem_filter.mp hmem
  refine ⟨hmf.1, by simpa using hmf.2, ?_⟩
  intro y hy hky
  exact le_maxDate (List.mem_filter.mpr ⟨hy, by simp [hky]⟩)

/-- A strictly ascending calendar restricted to a window is sorted for
`Date.le`. -/
theorem restricted_sorted {cal : List Date} (hcal : cal.Sorted Date.lt)
    (p : Date → Bool) : (cal.filter p).Sorted Date.le :=
  (List.Pairwise.sublist (List.filter_sublist cal) hcal).imp
    (fun h => Date.le_of_lt h)

/-- C7 (scheduler coverage): for every strictly ascending trading-day
calendar and any `[start_date, end_date]` restriction, `get_rebalance_dates`
with frequency `"daily"` returns exactly the trading days in the restricted
range; with `"quarterly"` it returns at most one date per (year, quarter)
bucket present in the restricted calendar, and that date is the maximum
trading day within its bucket; if the restricted range has no trading days
it returns the empty list. -/
theorem C7_scheduler_coverage (cal : List Date) (s e : Option Date)
    (hcal : cal.Sorted Date.lt) : schedulerCoverage cal s e := by
  have hlow_d : asciiLower "daily" = "daily" := by decide
  have hlow_q : asciiLower "quarterly" = "quarterly" := by decide
  have hq_ne : ("quarterly" : String) ≠ "daily" := by decide
  have hsorted : (cal.filter (inRange s e)).Sorted Date.le :=
    restricted_sorted hcal (inRange s e)
  have hsid : (cal.filter (inRange s e)).insertionSort Date.le =
      cal.filter (inRange s e) := List.Sorted.insertionSort_eq hsorted
  by_cases hemp : cal.filter (inRange s e) = []
  · refine ⟨?_, ⟨?_, ?_⟩, ?_⟩
    · rw [getRebalanceDates, if_pos hemp, hemp]
    · intro x hx
      rw [getRebalanceDates, if_pos hemp] at hx
      cases hx
    · intro x hx
      rw [getRebalanceDates, if_pos hemp] at hx
      cases hx
    · intro _
      constructor <;> rw [getRebalanceDates, if_pos hemp]
  · have hdaily : getRebalanceDates cal "daily" s e = cal.filter (inRange s e) := by
      rw [getRebalanceDates, if_neg hemp, hlow_d, if_pos rfl, hsid]
    have hquart : getRebalanceDates cal "quarterly" s e =
        ((((cal.filter (inRange s e)).map (freqKey "quarterly")).dedup).insertionSort
          keyLe).map
          (fun k => maxDate ((cal.filter (inRange s e)).filter
            (fun d => freqKey "quarterly" d = k))) := by
      rw [getRebalanceDates, if_neg hemp, hlow_q, if_neg hq_ne, hsid]
    refine ⟨hdaily, ⟨?_, ?_⟩, fun hc => absurd hc hemp⟩
    · intro x hx
      rw [hquart] at hx
      obtain ⟨k, hkmem, hmax⟩ := List.mem_map.mp hx
      have hk : k ∈ ((cal.filter (inRange s e)).map (freqKey "quarterly")).dedup :=
        (List.mem_insertionSort _).mp hkmem
      obtain ⟨h1, h2, h3⟩ := bucket_max_spec (freqKey "quarterly") _ k hk
      rw [hmax] at h1 h2 h3
      exact ⟨h1, fun y hy hky => h3 y hy (by rw [hky, h2])⟩
    · intro x hx y hy hk
      rw [hquart] at hx hy
      obtain ⟨k1, hk1mem, hmax1⟩ := List.mem_map.mp hx
      obtain ⟨k2, hk2mem, hmax2⟩ := List.mem_map.mp hy
      have h2a := (bucket_max_spec (freqKey "quarterly") _ k1
        ((List.mem_insertionSort _).mp hk1mem)).2.1
      have h2b := (bucket_max_spec (freqKey "quarterly") _ k2
        ((List.mem_insertionSort _).mp hk2mem)).2.1
      rw [hmax1] at h2a
      rw [hmax2] at h2b
      have : k1 = k2 := by rw [← h2a, ← h2b, hk]
      rw [← hmax1, ← hmax2, this]

/-- Witness for C7 on a concrete three-day calendar spanning two quarters. -/
theorem C7_witness :
    (([⟨2024,1,2⟩, ⟨2024,1,3⟩, ⟨2024,4,1⟩] : List Date).Sorted Date.lt) ∧
    schedulerCoverage [⟨2024,1,2⟩, ⟨2024,1,3⟩, ⟨2024,4,1⟩] none none :=
  ⟨by decide, C7_scheduler_coverage _ none none (by decide)⟩

/-- Counterexample to claim C8 as stated: the calendar consisting of the
trading days 2021-01-01 (ISO week 53 of ISO year 2020) and 2021-01-04
(ISO week 1 of 2021) produces the weekly schedule `[2021-01-04, 2021-01-01]`,
which is not sorted ascending — the code buckets by the *calendar* year
together with the ISO week number, so 2021-01-01 lands in bucket (2021, 53),
which sorts after (2021, 1). -/
theorem C8_counterexample :
    getRebalanceDates [⟨2021,1,1⟩, ⟨2021,1,4⟩] "weekly" none none =
      [⟨2021,1,4⟩, ⟨2021,1,1⟩] ∧
    ¬ (getRebalanceDates [⟨2021,1,1⟩, ⟨2021,1,4⟩] "weekly" none none).Sorted
        Date.le := by
  constructor
  · decide
  · decide

/-- C8 (amended): for every strictly ascending trading-day calendar,
`get_rebalance_dates` with frequency `"weekly"` buckets trading days by
(calendar year, ISO week) — not (ISO year, ISO week) — and returns the last
trading day of each such bucket: every bucket occupied by a trading day of
the restricted calendar contributes exactly one schedule entry, namely the
maximum trading day of that bucket; the returned list is deduplicated and is
ordered by strictly ascending bucket key (hence ascending by date except for
early-January days in ISO week 52/53, as the counterexample shows). -/
theorem C8_weekly_bucketing (cal : List Date) (s e : Option Date)
    (hcal : cal.Sorted Date.lt) : weeklyBucketing cal s e := by
  have hlow_w : asciiLower "weekly" = "weekly" := by decide
  have hw_ne : ("weekly" : String) ≠ "daily" := by decide
  have hwkey : freqKey "weekly" = fun d => ((d.year, d.isoWeek) : Int × Int) := by
    funext d
    rw [freqKey, if_pos rfl]
  have hsorted : (cal.filter (inRange s e)).Sorted Date.le :=
    restricted_sorted hcal (inRange s e)
  have hsid : (cal.filter (inRange s e)).insertionSort Date.le =
      cal.filter (inRange s e) := List.Sorted.insertionSort_eq hsorted
  by_cases hemp : cal.filter (inRange s e) = []
  · have hres : getRebalanceDates cal "weekly" s e = [] := by
      rw [getRebalanceDates, if_pos hemp]
    refine ⟨?_, ?_, ?_, ?_⟩
    · intro x hx; rw [hres] at hx; cases hx
    · intro x hx; rw [hres] at hx; cases hx
    · intro y hy; rw [hemp] at hy; cases hy
    · rw [hres]; exact List.Pairwise.nil
  · have hweek : getRebalanceDates cal "weekly" s e =
        ((((cal.filter (inRange s e)).map
            (fun d => ((d.year, d.isoWeek) : Int × Int))).dedup).insertionSort
          keyLe).map
          (fun k => maxDate ((cal.filter (inRange s e)).filter
            (fun d => (d.year, d.isoWeek) = k))) := by
      rw [getRebalanceDates, if_neg hemp, hlow_w, if_neg hw_ne, hsid, hwkey]
    refine ⟨?_, ?_, ?_, ?_⟩
    · intro x hx
      rw [hweek] at hx
      obtain ⟨k, hkmem, hmax⟩ := List.mem_map.mp hx
      obtain ⟨h1, h2, h3⟩ := bucket_max_spec
        (fun d => ((d.year, d.isoWeek) : Int × Int)) _ k
        ((List.mem_insertionSort _).mp hkmem)
      rw [hmax] at h1 h2 h3
      exact ⟨h1, fun y hy hky => h3 y hy (by rw [← h2]; exact hky)⟩
    · intro x hx y hy hk
      rw [hweek] at hx hy
      obtain ⟨k1, hk1mem, hmax1⟩ := List.mem_map.mp hx
      obtain ⟨k2, hk2mem, hmax2⟩ := List.mem_map.mp hy
      have h2a := (bucket_max_spec
        (fun d => ((d.year, d.isoWeek) : Int × Int)) _ k1
        ((List.mem_insertionSort _).mp hk1mem)).2.1
      have h2b := (bucket_max_spec
        (fun d => ((d.year, d.isoWeek) : Int × Int)) _ k2
        ((List.mem_insertionSort _).mp hk2mem)).2.1
      rw [hmax1] at h2a
      rw [hmax2] at h2b
      have hkk : k1 = k2 := by rw [← h2a, ← h2b]; exact hk
      rw [← hmax1, ← hmax2, hkk]
    · intro y hy
      have hkmem : ((y.year, y.isoWeek) : Int × Int) ∈
          ((cal.filter (inRange s e)).map
            (fun d => ((d.year, d.isoWeek) : Int × Int))).dedup :=
        List.mem_dedup.mpr (List.mem_map.mpr ⟨y, hy, rfl⟩)
      have hksort : ((y.year, y.isoWeek) : Int × Int) ∈
          (((cal.filter (inRange s e)).map
            (fun d => ((d.year, d.isoWeek) : Int × Int))).dedup).insertionSort
            keyLe :=
        (List.mem_insertionSort _).mpr hkmem
      refine ⟨maxDate ((cal.filter (inRange s e)).filter
        (fun d => (d.year, d.isoWeek) = (y.year, y.isoWeek))), ?_, ?_⟩
      · rw [hweek]
        exact List.mem_map.mpr ⟨(y.year, y.isoWeek), hksort, rfl⟩
      · exact (bucket_max_spec
          (fun d => ((d.year, d.isoWeek) : Int × Int)) _ _ hkmem).2.1
    · rw [hweek]
      have hkeys_le :
          ((((cal.filter (inRange s e)).map
            (fun d => ((d.year, d.isoWeek) : Int × Int))).dedup).insertionSort
            keyLe).Sorted keyLe :=
        List.sorted_insertionSort keyLe _
      have hkeys_nd :
          ((((cal.filter (inRange s e)).map
            (fun d => ((d.year, d.isoWeek) : Int × Int))).dedup).insertionSort
            keyLe).Nodup :=
        ((List.perm_insertionSort keyLe _).nodup_iff).mpr
          (List.nodup_dedup _)
      have hkeys_lt :
          ((((cal.filter (inRange s e)).map
            (fun d => ((d.year, d.isoWeek) : Int × Int))).dedup).insertionSort
            keyLe).Sorted keyLt := by
        have hand := hkeys_le.and hkeys_nd
        exact hand.imp (fun h => keyLt_of_le_of_ne h.1 h.2)
      refine (List.pairwise_map).mpr ?_
      refine List.Pairwise.imp_of_mem ?_ hkeys_lt
      intro k1 k2 hk1 hk2 hlt
      have h2a := (bucket_max_spec
        (fun d => ((d.year, d.isoWeek) : Int × Int)) _ k1
        ((List.mem_insertionSort _).mp hk1)).2.1
      have h2b := (bucket_max_spec
        (fun d => ((d.year, d.isoWeek) : Int × Int)) _ k2
        ((List.mem_insertionSort _).mp hk2)).2.1
      rw [h2a, h2b]
      exact hlt

/-- Witness for C8's amended theorem on the year-boundary calendar of the
counterexample. -/
theorem C8_weekly_witness :
    (([⟨2021,1,1⟩, ⟨2021,1,4⟩] : List Date).Sorted Date.lt) ∧
    weeklyBucketing [⟨2021,1,1⟩, ⟨2021,1,4⟩] none none :=
  ⟨by decide, C8_weekly_bucketing _ none none (by decide)⟩

/-! ### Backtester lemmas and claims -/

theorem dictLookup_dictInsert_self (k : String) (v : Table) :
    ∀ d : DataDict, dictLookup k (dictInsert k v d) = some v
  | [] => by simp [dictInsert, dictLookup]
  | e :: rest => by
      by_cases h : e.1 = k
      · simp [dictInsert, h, dictLookup]
      · simp only [dictInsert, if_neg h]
        have ih := dictLookup_dictInsert_self k v rest
        simpa [dictLookup, h] using ih

theorem dictLookup_dictInsert_ne (k k' : String) (v : Table) (hne : k' ≠ k) :
    ∀ d : DataDict, dictLookup k' (dictInsert k v d) = dictLookup k' d
  | [] => by simp [dictInsert, dictLookup, Ne.symm hne]
  | e :: rest => by
      by_cases h : e.1 = k
      · have he : ¬ (e.1 = k') := by
          rw [h]; exact fun hc => hne hc.symm
        simp [dictInsert, h, dictLookup, Ne.symm hne, he]
      · have ih := dictLookup_dictInsert_ne k k' v hne rest
        by_cases h2 : e.1 = k'
        · simp [dictInsert, dictLookup, h2, hne, h]
        · simp only [dictInsert, if_neg h]
          simpa [dictLookup, h2] using ih

/-- Every strategy call appended by a step carries the engine's dict, and
calls accumulate by appending. -/
theorem stepDay_calls (env : BTEnv) (st : BTState) (day : Date) :
    ∃ t, (stepDay env st day).calls = st.calls ++ t ∧
      ∀ c ∈ t, c.dict = env.dict := by
  by_cases h : day ∈ env.rebalanceDates
  · refine ⟨[⟨day, btValue env st day, env.dict, ! st.firstDone,
      btAlloc env st day⟩], ?_, ?_⟩
    · simp [stepDay, h]
    · intro c hc
      simp only [List.mem_singleton] at hc
      rw [hc]
  · exact ⟨[], by simp [stepDay, h], by simp⟩

theorem foldl_stepDay_calls (env : BTEnv) :
    ∀ (days : List Date) (st : BTState),
      ∃ t, ((days.foldl (stepDay env) st).calls = st.calls ++ t ∧
        ∀ c ∈ t, c.dict = env.dict)
  | [], st => ⟨[], by simp, by simp⟩
  | d :: ds, st => by
      obtain ⟨t1, h1, h1d⟩ := stepDay_calls env st d
      obtain ⟨t2, h2, h2d⟩ := foldl_stepDay_calls env ds (stepDay env st d)
      refine ⟨t1 ++ t2, ?_, ?_⟩
      · rw [List.foldl_cons, h2, h1, List.append_assoc]
      · intro c hc
        rcases List.mem_append.mp hc with h | h
        exacts [h1d c h, h2d c h]

/-- C10 (data-dict mutation): `run_backtest` stores its own `proxies_df` and
`top_stocks_df` arguments in the caller-supplied `data_dict` under those two
keys before the first strategy call, overwriting whatever the caller had
stored there, and leaves every other key unchanged; every strategy
invocation therefore observes the engine's input tables under those keys. -/
theorem C10_dict_overwrite (strategy : Strategy) (proxiesDf topStocksDf : Table)
    (rd : List Date) (initialFunds : ℚ) (dataDict : DataDict)
    (mp mmp : String) (res : BTResult)
    (hres : runBacktest strategy proxiesDf topStocksDf rd initialFunds
      dataDict mp mmp = some res) :
    ∀ c ∈ res.calls,
      dictLookup "proxies_df" c.dict = some proxiesDf ∧
      dictLookup "top_stocks_df" c.dict = some topStocksDf ∧
      ∀ k, k ≠ "proxies_df" → k ≠ "top_stocks_df" →
        dictLookup k c.dict = dictLookup k dataDict := by
  match rd with
  | [] => simp [runBacktest] at hres
  | rd0 :: rest =>
      rw [runBacktest] at hres
      obtain ⟨t, hcalls, hdict⟩ := foldl_stepDay_calls
        (⟨mp, mmp, proxiesDf.insertionSort rowLe,
          topStocksDf.insertionSort rowLe, rd0 :: rest, initialFunds,
          strategy, dictInsert "top_stocks_df" topStocksDf
            (dictInsert "proxies_df" proxiesDf dataDict)⟩ : BTEnv)
        (btTradingDays proxiesDf rd0 rest)
        ⟨[], false, [], [],
          if Date.lt (maxDate ((proxiesDf.insertionSort rowLe).map
            (fun r => r.date)))
            ((rd0 :: rest).getLast (List.cons_ne_nil rd0 rest))
          then [LogEvent.truncation
            ((rd0 :: rest).getLast (List.cons_ne_nil rd0 rest))
            (maxDate ((proxiesDf.insertionSort rowLe).map (fun r => r.date)))]
          else []⟩
      intro c hc
      have hrescalls : res.calls = [] ++ t := by
        rw [← hcalls]
        have := congrArg BTResult.calls (Option.some.inj hres)
        exact this.symm
      rw [hrescalls] at hc
      simp only [List.nil_append] at hc
      have hcd := hdict c hc
      rw [hcd]
      refine ⟨?_, ?_, ?_⟩
      · rw [dictLookup_dictInsert_ne "top_stocks_df" "proxies_df" _ (by decide),
          dictLookup_dictInsert_self]
      · rw [dictLookup_dictInsert_self]
      · intro k hk1 hk2
        rw [dictLookup_dictInsert_ne "top_stocks_df" k _ hk2,
          dictLookup_dictInsert_ne "proxies_df" k _ hk1]

/-- Witness for C10: a one-day run whose caller dict already holds a bogus
`proxies_df` entry plus an unrelated key. -/
theorem C10_witness :
    (runBacktest (fun _ _ _ _ => [("SPY", 1)])
      [⟨⟨2024,1,2⟩, "SPY", 100⟩] []
      [⟨2024,1,2⟩] 1000
      [("proxies_df", []), ("junk", [⟨⟨2024,1,2⟩, "XXX", 1⟩])]
      "SPY" "BIL" =
      some ⟨[(⟨2024,1,2⟩, 1000)],
        [⟨⟨2024,1,2⟩, 1000,
          [("proxies_df", [⟨⟨2024,1,2⟩, "SPY", 100⟩]),
           ("junk", [⟨⟨2024,1,2⟩, "XXX", 1⟩]),
           ("top_stocks_df", [])], true, [("SPY", 1)]⟩], []⟩) ∧
    (∀ c ∈ (⟨[(⟨2024,1,2⟩, 1000)],
        [⟨⟨2024,1,2⟩, 1000,
          [("proxies_df", [⟨⟨2024,1,2⟩, "SPY", 100⟩]),
           ("junk", [⟨⟨2024,1,2⟩, "XXX", 1⟩]),
           ("top_stocks_df", [])], true, [("SPY", 1)]⟩], []⟩ : BTResult).calls,
      dictLookup "proxies_df" c.dict = some [⟨⟨2024,1,2⟩, "SPY", 100⟩] ∧
      dictLookup "top_stocks_df" c.dict = some [] ∧
      ∀ k, k ≠ "proxies_df" → k ≠ "top_stocks_df" →
        dictLookup k c.dict =
          dictLookup k [("proxies_df", []), ("junk", [⟨⟨2024,1,2⟩, "XXX", 1⟩])]) :=
  ⟨by norm_num +decide [runBacktest, stepDay, allocateHoldings, getPrice,
      btValue, btAlloc, computePortfolioValue, btTradingDays, btEndDate,
      dictInsert, maxDate, List.insertionSort, List.orderedInsert,
      List.dedup, List.foldl],
   C10_dict_overwrite (fun _ _ _ _ => [("SPY", 1)])
    [⟨⟨2024,1,2⟩, "SPY", 100⟩] [] [⟨2024,1,2⟩] 1000
    [("proxies_df", []), ("junk", [⟨⟨2024,1,2⟩, "XXX", 1⟩])] "SPY" "BIL" _
    (by norm_num +decide [runBacktest, stepDay, allocateHoldings, getPrice,
      btValue, btAlloc, computePortfolioValue, btTradingDays, btEndDate,
      dictInsert, maxDate, List.insertionSort, List.orderedInsert,
      List.dedup, List.foldl])⟩

/-- Every trading day of a run is at or after the first rebalance date. -/
theorem btTradingDays_ge (proxies : Table) (rd0 : Date) (rest : List Date) :
    ∀ x ∈ btTradingDays proxies rd0 rest, Date.le rd0 x := by
  intro x hx
  unfold btTradingDays at hx
  have hx2 := (List.mem_insertionSort _).mp hx
  have hx3 := List.mem_dedup.mp hx2
  obtain ⟨r, hr, hrd⟩ := List.mem_map.mp hx3
  have hcond := (List.mem_filter.mp hr).2
  rw [← hrd]
  exact (of_decide_eq_true hcond).1

/-- C2 (first-rebalance override): in any run whose (non-empty) rebalance
list has its first date among the simulated trading days, the first strategy
call happens on that date with portfolio value exactly `initial_funds`
(regardless of the mark-to-market value of the empty holdings), and every
strategy call after the first rebalance receives the mark-to-market value of
the current holdings on that day. -/
theorem C2_first_rebalance_override (strategy : Strategy)
    (proxiesDf topStocksDf : Table) (rd0 : Date) (rest : List Date)
    (initialFunds : ℚ) (dataDict : DataDict) (mp mmp : String)
    (res : BTResult)
    (hres : runBacktest strategy proxiesDf topStocksDf (rd0 :: rest)
      initialFunds dataDict mp mmp = some res)
    (hmem : rd0 ∈ btTradingDays proxiesDf rd0 rest) :
    firstRebalanceOverride res rd0 initialFunds := by
  constructor
  · rw [runBacktest] at hres
    have hhead : (btTradingDays proxiesDf rd0 rest).head? = some rd0 :=
      head?_eq_of_sorted_of_mem (List.sorted_insertionSort Date.le _) hmem
        (btTradingDays_ge proxiesDf rd0 rest)
    obtain ⟨days, htd⟩ : ∃ days, btTradingDays proxiesDf rd0 rest =
        rd0 :: days := by
      cases htd : btTradingDays proxiesDf rd0 rest with
      | nil => rw [htd] at hhead; cases hhead
      | cons d ds =>
          rw [htd] at hhead
          simp only [List.head?_cons, Option.some.injEq] at hhead
          exact ⟨ds, by rw [hhead]⟩
    rw [htd, List.foldl_cons] at hres
    have hreb : rd0 ∈ (rd0 :: rest) := List.mem_cons_self rd0 rest
    set env : BTEnv :=
      ⟨mp, mmp, proxiesDf.insertionSort rowLe,
        topStocksDf.insertionSort rowLe, rd0 :: rest, initialFunds,
        strategy, dictInsert "top_stocks_df" topStocksDf
          (dictInsert "proxies_df" proxiesDf dataDict)⟩ with henv
    set st0 : BTState :=
      ⟨[], false, [], [],
        if Date.lt (maxDate ((proxiesDf.insertionSort rowLe).map
          (fun r => r.date)))
          ((rd0 :: rest).getLast (List.cons_ne_nil rd0 rest))
        then [LogEvent.truncation
          ((rd0 :: rest).getLast (List.cons_ne_nil rd0 rest))
          (maxDate ((proxiesDf.insertionSort rowLe).map (fun r => r.date)))]
        else []⟩ with hst0
    have hstep : (stepDay env st0 rd0).calls =
        [⟨rd0, initialFunds, env.dict, true, btAlloc env st0 rd0⟩] := by
      have hrb : rd0 ∈ env.rebalanceDates := hreb
      simp [stepDay, if_pos hrb, hst0, btValue]
    obtain ⟨t, hcalls, _⟩ := foldl_stepDay_calls env days (stepDay env st0 rd0)
    have hrescalls : res.calls =
        ⟨rd0, initialFunds, env.dict, true, btAlloc env st0 rd0⟩ :: t := by
      have hc := congrArg BTResult.calls (Option.some.inj hres)
      rw [← hc, hcalls, hstep]
      simp
    exact ⟨_, t, hrescalls, rfl, rfl, rfl⟩
  · intro env st day hfd hreb c hc hnotin
    simp only [stepDay, if_pos hreb] at hc
    rcases List.mem_append.mp hc with hin | hnew
    · exact absurd hin hnotin
    · simp only [List.mem_singleton] at hnew
      rw [hnew]
      constructor
      · simp [btValue, hfd]
      · simp [hfd]

/-- Witness for C2: a one-day run on a concrete fixture. -/
theorem C2_witness :
    (runBacktest (fun _ _ _ _ => [("SPY", 1)])
      [⟨⟨2024,1,2⟩, "SPY", 100⟩] [] [⟨2024,1,2⟩] 1000 [] "SPY" "BIL" =
      some ⟨[(⟨2024,1,2⟩, 1000)],
        [⟨⟨2024,1,2⟩, 1000,
          [("proxies_df", [⟨⟨2024,1,2⟩, "SPY", 100⟩]),
           ("top_stocks_df", [])], true, [("SPY", 1)]⟩], []⟩) ∧
    ((⟨2024,1,2⟩ : Date) ∈
      btTradingDays [⟨⟨2024,1,2⟩, "SPY", 100⟩] ⟨2024,1,2⟩ []) ∧
    firstRebalanceOverride
      ⟨[(⟨2024,1,2⟩, 1000)],
        [⟨⟨2024,1,2⟩, 1000,
          [("proxies_df", [⟨⟨2024,1,2⟩, "SPY", 100⟩]),
           ("top_stocks_df", [])], true, [("SPY", 1)]⟩], []⟩
      ⟨2024,1,2⟩ 1000 :=
  ⟨by norm_num +decide [runBacktest, stepDay, allocateHoldings, getPrice,
      btValue, btAlloc, computePortfolioValue, btTradingDays, btEndDate,
      dictInsert, maxDate, List.insertionSort, List.orderedInsert,
      List.dedup, List.foldl],
   by decide,
   C2_first_rebalance_override (fun _ _ _ _ => [("SPY", 1)])
    [⟨⟨2024,1,2⟩, "SPY", 100⟩] [] ⟨2024,1,2⟩ [] 1000 [] "SPY" "BIL" _
    (by norm_num +decide [runBacktest, stepDay, allocateHoldings, getPrice,
      btValue, btAlloc, computePortfolioValue, btTradingDays, btEndDate,
      dictInsert, maxDate, List.insertionSort, List.orderedInsert,
      List.dedup, List.foldl])
    (by decide)⟩

/-- Mark-to-market value of a freshly allocated holdings map: with every
allocated ticker priced and positive, it is the allocation value times the
sum of the weights. -/
theorem roundtrip_value (env : BTEnv) (day : Date) (v : ℚ) :
    ∀ alloc : List (String × ℚ),
      (∀ e ∈ alloc, hasPosPrice env day e.1 = true) →
      computePortfolioValue env day (allocateHoldings env day v alloc).1 =
        v * (alloc.map (fun e => e.2)).sum
  | [], _ => by simp [allocateHoldings, computePortfolioValue]
  | e :: rest, hall => by
      have he := hall e (List.mem_cons_self e rest)
      have hrest := fun x hx => hall x (List.mem_cons_of_mem e hx)
      cases hp : getPrice env day e.1 with
      | none =>
          rw [hasPosPrice, hp] at he
          cases he
      | some p =>
          rw [hasPosPrice, hp] at he
          have hpos : 0 < p := of_decide_eq_true he
          have hple : ¬ p ≤ 0 := not_le.mpr hpos
          have ih := roundtrip_value env day v rest hrest
          simp only [allocateHoldings, hp, if_neg hple]
          simp only [computePortfolioValue, hp, List.map_cons, List.sum_cons]
          rw [ih]
          have hpne : p ≠ 0 := ne_of_gt hpos
          field_simp
          ring

/-- C3 (weight-to-shares round trip): on a rebalance day where the
strategy's weights sum to 1 and every allocated ticker has a present,
strictly positive price, the portfolio value recorded for that day (the
mark-to-market of the just-replaced holdings) equals the pre-rebalance value
used for allocation.  Arithmetic is modelled exactly over ℚ, so the
"floating-point tolerance" of the claim is exact equality here. -/
theorem C3_weight_roundtrip (env : BTEnv) (st : BTState) (day : Date)
    (hreb : day ∈ env.rebalanceDates)
    (hsum : ((btAlloc env st day).map (fun e => e.2)).sum = 1)
    (hp : ∀ e ∈ btAlloc env st day, hasPosPrice env day e.1 = true) :
    (stepDay env st day).records.getLast? =
      some (day, btValue env st day) := by
  have hv := roundtrip_value env day (btValue env st day)
    (btAlloc env st day) hp
  rw [hsum, mul_one] at hv
  simp only [stepDay, if_pos hreb]
  rw [List.getLast?_concat, hv]

/-- Witness for C3 on a concrete one-day rebalance. -/
theorem C3_witness :
    ((⟨2024,1,2⟩ : Date) ∈
      (⟨"SPY", "BIL", [⟨⟨2024,1,2⟩, "SPY", 100⟩], [], [⟨2024,1,2⟩], 1000,
        (fun _ _ _ _ => [("SPY", 1)]), []⟩ : BTEnv).rebalanceDates) ∧
    (((btAlloc ⟨"SPY", "BIL", [⟨⟨2024,1,2⟩, "SPY", 100⟩], [], [⟨2024,1,2⟩],
        1000, (fun _ _ _ _ => [("SPY", 1)]), []⟩ ⟨[], false, [], [], []⟩
        ⟨2024,1,2⟩).map (fun e => e.2)).sum = 1) ∧
    (stepDay ⟨"SPY", "BIL", [⟨⟨2024,1,2⟩, "SPY", 100⟩], [], [⟨2024,1,2⟩],
        1000, (fun _ _ _ _ => [("SPY", 1)]), []⟩ ⟨[], false, [], [], []⟩
        ⟨2024,1,2⟩).records.getLast? =
      some (⟨2024,1,2⟩,
        btValue ⟨"SPY", "BIL", [⟨⟨2024,1,2⟩, "SPY", 100⟩], [], [⟨2024,1,2⟩],
          1000, (fun _ _ _ _ => [("SPY", 1)]), []⟩ ⟨[], false, [], [], []⟩
          ⟨2024,1,2⟩) :=
  ⟨by decide,
   by norm_num [btAlloc, btValue],
   C3_weight_roundtrip _ _ _ (by decide) (by norm_num [btAlloc, btValue])
     (by decide)⟩

/-- C9 (missing-price semantics): a held ticker with no price row on a day
contributes exactly 0 to that day's portfolio value; holdings pass through
non-rebalance days unchanged; and a held ticker contributes
`shares × price` on any day where its price exists. -/
theorem C9_missing_price_semantics (env : BTEnv) (st : BTState)
    (day day2 : Date) (t : String) (sh p : ℚ) (h : List (String × ℚ)) :
    (getPrice env day t = none →
      computePortfolioValue env day ((t, sh) :: h) =
        computePortfolioValue env day h) ∧
    (day ∉ env.rebalanceDates →
      (stepDay env st day).holdings = st.holdings) ∧
    (getPrice env day2 t = some p →
      computePortfolioValue env day2 ((t, sh) :: h) =
        sh * p + computePortfolioValue env day2 h) := by
  refine ⟨?_, ?_, ?_⟩
  · intro hnone
    simp [computePortfolioValue, hnone]
  · intro hnr
    simp [stepDay, hnr]
  · intro hsome
    simp [computePortfolioValue, hsome]

/-- Witness for C9: AAPL has no price row on 2024-01-02 but one on
2024-01-03; 2024-01-03 is not a rebalance date. -/
theorem C9_witness :
    (getPrice ⟨"SPY", "BIL", [⟨⟨2024,1,2⟩, "SPY", 100⟩, ⟨⟨2024,1,3⟩, "SPY", 100⟩],
        [⟨⟨2024,1,3⟩, "AAPL", 10⟩], [⟨2024,1,2⟩], 1000,
        (fun _ _ _ _ => []), []⟩ ⟨2024,1,2⟩ "AAPL" = none) ∧
    ((⟨2024,1,3⟩ : Date) ∉
      (⟨"SPY", "BIL", [⟨⟨2024,1,2⟩, "SPY", 100⟩, ⟨⟨2024,1,3⟩, "SPY", 100⟩],
        [⟨⟨2024,1,3⟩, "AAPL", 10⟩], [⟨2024,1,2⟩], 1000,
        (fun _ _ _ _ => []), []⟩ : BTEnv).rebalanceDates) ∧
    (getPrice ⟨"SPY", "BIL", [⟨⟨2024,1,2⟩, "SPY", 100⟩, ⟨⟨2024,1,3⟩, "SPY", 100⟩],
        [⟨⟨2024,1,3⟩, "AAPL", 10⟩], [⟨2024,1,2⟩], 1000,
        (fun _ _ _ _ => []), []⟩ ⟨2024,1,3⟩ "AAPL" = some 10) ∧
    (computePortfolioValue ⟨"SPY", "BIL",
        [⟨⟨2024,1,2⟩, "SPY", 100⟩, ⟨⟨2024,1,3⟩, "SPY", 100⟩],
        [⟨⟨2024,1,3⟩, "AAPL", 10⟩], [⟨2024,1,2⟩], 1000,
        (fun _ _ _ _ => []), []⟩ ⟨2024,1,2⟩ [("AAPL", 5)] =
      computePortfolioValue ⟨"SPY", "BIL",
        [⟨⟨2024,1,2⟩, "SPY", 100⟩, ⟨⟨2024,1,3⟩, "SPY", 100⟩],
        [⟨⟨2024,1,3⟩, "AAPL", 10⟩], [⟨2024,1,2⟩], 1000,
        (fun _ _ _ _ => []), []⟩ ⟨2024,1,2⟩ []) ∧
    (stepDay ⟨"SPY", "BIL",
        [⟨⟨2024,1,2⟩, "SPY", 100⟩, ⟨⟨2024,1,3⟩, "SPY", 100⟩],
        [⟨⟨2024,1,3⟩, "AAPL", 10⟩], [⟨2024,1,2⟩], 1000,
        (fun _ _ _ _ => []), []⟩ ⟨[("AAPL", 5)], true, [], [], []⟩
        ⟨2024,1,3⟩).holdings = [("AAPL", 5)] ∧
    (computePortfolioValue ⟨"SPY", "BIL",
        [⟨⟨2024,1,2⟩, "SPY", 100⟩, ⟨⟨2024,1,3⟩, "SPY", 100⟩],
        [⟨⟨2024,1,3⟩, "AAPL", 10⟩], [⟨2024,1,2⟩], 1000,
        (fun _ _ _ _ => []), []⟩ ⟨2024,1,3⟩ [("AAPL", 5)] =
      5 * 10 + computePortfolioValue ⟨"SPY", "BIL",
        [⟨⟨2024,1,2⟩, "SPY", 100⟩, ⟨⟨2024,1,3⟩, "SPY", 100⟩],
        [⟨⟨2024,1,3⟩, "AAPL", 10⟩], [⟨2024,1,2⟩], 1000,
        (fun _ _ _ _ => []), []⟩ ⟨2024,1,3⟩ []) :=
  ⟨by decide, by decide, by decide,
   (C9_missing_price_semantics _ ⟨[("AAPL", 5)], true, [], [], []⟩
     ⟨2024,1,2⟩ ⟨2024,1,3⟩ "AAPL" 5 10 []).1 (by decide),
   ((C9_missing_price_semantics _ ⟨[("AAPL", 5)], true, [], [], []⟩
     ⟨2024,1,3⟩ ⟨2024,1,3⟩ "AAPL" 5 10 []).2.1 (by decide)),
   ((C9_missing_price_semantics _ ⟨[("AAPL", 5)], true, [], [], []⟩
     ⟨2024,1,2⟩ ⟨2024,1,3⟩ "AAPL" 5 10 []).2.2 (by decide))⟩

/-- Counterexample to claim C4 as stated: a run whose strategy returns the
allocation `{SPY: 2, AAPL: −1/2}` — weights summing to 3/2 > 1 + ε with a
negative weight — produces no warning/error log event whatsoever (the
result's log list is empty), because `run_backtest` contains no weight
validation; the allocation is nevertheless executed. -/
theorem C4_counterexample :
    (runBacktest (fun _ _ _ _ => [("SPY", 2), ("AAPL", -1/2)])
      [⟨⟨2024,1,2⟩, "SPY", 100⟩] [⟨⟨2024,1,2⟩, "AAPL", 10⟩]
      [⟨2024,1,2⟩] 1000 [] "SPY" "BIL").map
        (fun r => (r.logs, r.calls.map (fun c => c.alloc))) =
      some ([], [[("SPY", 2), ("AAPL", -1/2)]]) ∧
    ((([("SPY", (2:ℚ)), ("AAPL", -1/2)]).map (fun e => e.2)).sum = 3/2) ∧
    ((1 : ℚ) + 1/1000000 < 3/2) ∧ ((-1/2 : ℚ) < 0) := by
  refine ⟨?_, by norm_num, by norm_num, by norm_num⟩
  norm_num +decide [runBacktest, stepDay, allocateHoldings, getPrice,
    btValue, btAlloc, computePortfolioValue, btTradingDays, btEndDate,
    dictInsert, maxDate, List.insertionSort, List.orderedInsert,
    List.dedup, List.foldl]

/-- A fully priced allocation is converted ticker by ticker with no log
event. -/
theorem allocate_all_pos (env : BTEnv) (day : Date) (v : ℚ) :
    ∀ alloc : List (String × ℚ),
      (∀ e ∈ alloc, hasPosPrice env day e.1 = true) →
      allocateHoldings env day v alloc =
        (alloc.map (fun e => (e.1, e.2 * v / priceOr0 env day e.1)), [])
  | [], _ => by simp [allocateHoldings]
  | e :: rest, hall => by
      have he := hall e (List.mem_cons_self e rest)
      have hrest := fun x hx => hall x (List.mem_cons_of_mem e hx)
      cases hp : getPrice env day e.1 with
      | none =>
          rw [hasPosPrice, hp] at he
          cases he
      | some p =>
          rw [hasPosPrice, hp] at he
          have hpos : 0 < p := of_decide_eq_true he
          have hple : ¬ p ≤ 0 := not_le.mpr hpos
          have ih := allocate_all_pos env day v rest hrest
          simp only [allocateHoldings, hp, if_neg hple, ih, List.map_cons,
            priceOr0, hp, Option.getD_some]

/-- C4 (amended): the engine performs no validation of the strategy's
weights — on a rebalance day where every allocated ticker has a present,
positive price, the allocation is executed unchanged (each ticker receives
`weight × value / price` shares, with no clamping) and no warning-level log
event is emitted, whatever the weights are (negative, or summing above
1 + ε). -/
theorem C4_no_validation (env : BTEnv) (st : BTState) (day : Date)
    (hreb : day ∈ env.rebalanceDates)
    (hp : ∀ e ∈ btAlloc env st day, hasPosPrice env day e.1 = true) :
    (stepDay env st day).holdings =
      (btAlloc env st day).map
        (fun e => (e.1, e.2 * btValue env st day / priceOr0 env day e.1)) ∧
    (stepDay env st day).logs = st.logs := by
  have halloc := allocate_all_pos env day (btValue env st day)
    (btAlloc env st day) hp
  simp only [stepDay, if_pos hreb, halloc]
  exact ⟨by simp, by simp⟩

/-- Witness for the amended C4, with weights `{SPY: 2, AAPL: −1}` violating
both conditions the spec claims are checked. -/
theorem C4_no_validation_witness :
    ((⟨2024,1,2⟩ : Date) ∈
      (⟨"SPY", "BIL", [⟨⟨2024,1,2⟩, "SPY", 100⟩], [⟨⟨2024,1,2⟩, "AAPL", 10⟩],
        [⟨2024,1,2⟩], 1000, (fun _ _ _ _ => [("SPY", 2), ("AAPL", -1)]),
        []⟩ : BTEnv).rebalanceDates) ∧
    (∀ e ∈ btAlloc ⟨"SPY", "BIL", [⟨⟨2024,1,2⟩, "SPY", 100⟩],
        [⟨⟨2024,1,2⟩, "AAPL", 10⟩], [⟨2024,1,2⟩], 1000,
        (fun _ _ _ _ => [("SPY", 2), ("AAPL", -1)]), []⟩
        ⟨[], false, [], [], []⟩ ⟨2024,1,2⟩,
      hasPosPrice ⟨"SPY", "BIL", [⟨⟨2024,1,2⟩, "SPY", 100⟩],
        [⟨⟨2024,1,2⟩, "AAPL", 10⟩], [⟨2024,1,2⟩], 1000,
        (fun _ _ _ _ => [("SPY", 2), ("AAPL", -1)]), []⟩ ⟨2024,1,2⟩ e.1 =
        true) ∧
    ((stepDay ⟨"SPY", "BIL", [⟨⟨2024,1,2⟩, "SPY", 100⟩],
        [⟨⟨2024,1,2⟩, "AAPL", 10⟩], [⟨2024,1,2⟩], 1000,
        (fun _ _ _ _ => [("SPY", 2), ("AAPL", -1)]), []⟩
        ⟨[], false, [], [], []⟩ ⟨2024,1,2⟩).holdings =
      (btAlloc ⟨"SPY", "BIL", [⟨⟨2024,1,2⟩, "SPY", 100⟩],
        [⟨⟨2024,1,2⟩, "AAPL", 10⟩], [⟨2024,1,2⟩], 1000,
        (fun _ _ _ _ => [("SPY", 2), ("AAPL", -1)]), []⟩
        ⟨[], false, [], [], []⟩ ⟨2024,1,2⟩).map
        (fun e => (e.1, e.2 * btValue ⟨"SPY", "BIL",
          [⟨⟨2024,1,2⟩, "SPY", 100⟩], [⟨⟨2024,1,2⟩, "AAPL", 10⟩],
          [⟨2024,1,2⟩], 1000, (fun _ _ _ _ => [("SPY", 2), ("AAPL", -1)]),
          []⟩ ⟨[], false, [], [], []⟩ ⟨2024,1,2⟩ /
          priceOr0 ⟨"SPY", "BIL", [⟨⟨2024,1,2⟩, "SPY", 100⟩],
          [⟨⟨2024,1,2⟩, "AAPL", 10⟩], [⟨2024,1,2⟩], 1000,
          (fun _ _ _ _ => [("SPY", 2), ("AAPL", -1)]), []⟩ ⟨2024,1,2⟩
          e.1)) ∧
      (stepDay ⟨"SPY", "BIL", [⟨⟨2024,1,2⟩, "SPY", 100⟩],
        [⟨⟨2024,1,2⟩, "AAPL", 10⟩], [⟨2024,1,2⟩], 1000,
        (fun _ _ _ _ => [("SPY", 2), ("AAPL", -1)]), []⟩
        ⟨[], false, [], [], []⟩ ⟨2024,1,2⟩).logs =
        (⟨[], false, [], [], []⟩ : BTState).logs) :=
  ⟨by decide, by decide,
   C4_no_validation _ ⟨[], false, [], [], []⟩ ⟨2024,1,2⟩ (by decide)
     (by decide)⟩

/-! ### Indicator-engine claims -/

/-- A fold that never matches keeps its accumulator. -/
theorem asof_fold_skip (d : Date) (acc : Option CARow) :
    ∀ ca : List CARow, (∀ f ∈ ca, ¬ Date.le f.endDate d) →
      ca.foldl (fun acc e => if Date.le e.endDate d then some e else acc) acc =
        acc
  | [], _ => rfl
  | e :: rest, h => by
      have he := h e (List.mem_cons_self e rest)
      simp only [List.foldl_cons, if_neg he]
      exact asof_fold_skip d acc rest
        (fun f hf => h f (List.mem_cons_of_mem e hf))

/-- The as-of lookup returns the last matching row when everything after it
misses. -/
theorem asof_fold_last (d : Date) (ca1 : List CARow) (f : CARow)
    (ca2 : List CARow) (hf : Date.le f.endDate d)
    (h2 : ∀ g ∈ ca2, ¬ Date.le g.endDate d) :
    asofCA (ca1 ++ f :: ca2) d = some f := by
  unfold asofCA
  rw [List.foldl_append, List.foldl_cons, if_pos hf]
  exact asof_fold_skip d (some f) ca2 h2

/-- C5 (EPS point-in-time join): for a ticker whose C/A frame has strictly
increasing end dates (as `compute_c_a_from_financials` produces), a filing
with end date `e` determines the C and A values of exactly the price rows
dated in `[e, next filing's end date)`; rows before the earliest filing, and
all rows of a ticker with no filings, get `C = A = False`. -/
theorem C5_point_in_time_join (rows : List NRow) (ca : List CARow)
    (hca : ca.Pairwise (fun x y => Date.lt x.endDate y.endDate)) :
    ∀ r ∈ mergeCA rows ca, epsAsofSpec ca r := by
  intro r hr
  obtain ⟨r0, _, hbuild⟩ := List.mem_map.mp hr
  have hsorted : ca.Sorted caLe := hca.imp (fun h => Date.le_of_lt h)
  have hsid : ca.insertionSort caLe = ca :=
    List.Sorted.insertionSort_eq hsorted
  have hdate : r.date = r0.date := by rw [← hbuild]
  have hc : r.c = cFlagOf ca r0.date := by rw [← hbuild]
  have ha : r.a = aFlagOf ca r0.date := by rw [← hbuild]
  refine ⟨?_, ?_, ?_⟩
  · intro hnil
    rw [hc, ha, cFlagOf, aFlagOf, if_pos hnil, if_pos hnil]
    exact ⟨rfl, rfl⟩
  · intro i hi hle hnext
    have hne : ca ≠ [] := by
      intro hcon
      rw [hcon] at hi
      cases hi
    have hsplit : ca = ca.take i ++ ca.get ⟨i, hi⟩ :: ca.drop (i + 1) := by
      conv_lhs => rw [← List.take_append_drop i ca]
      rw [List.drop_eq_getElem_cons hi]
      rfl
    have hafter : ∀ g ∈ ca.drop (i + 1), ¬ Date.le g.endDate r0.date := by
      intro g hg
      obtain ⟨k, hk, hgk⟩ := List.getElem_of_mem hg
      rw [List.getElem_drop] at hgk
      have hklen : i + 1 + k < ca.length := by
        rw [List.length_drop] at hk
        omega
      have hnext1 : Date.lt r0.date (ca.get ⟨i + 1, by omega⟩).endDate := by
        have h1 := hnext (by omega)
        rwa [hdate] at h1
      have hgd : Date.lt r0.date g.endDate := by
        rcases Nat.eq_zero_or_pos k with hk0 | hkpos
        · subst hk0
          have hgk0 : ca.get ⟨i + 1, by omega⟩ = g := by
            simpa using hgk
          rw [← hgk0]
          exact hnext1
        · have hstep : Date.lt (ca.get ⟨i + 1, by omega⟩).endDate
              (ca.get ⟨i + 1 + k, hklen⟩).endDate := by
            have hp := List.pairwise_iff_get.mp hca
            exact hp ⟨i + 1, by omega⟩ ⟨i + 1 + k, hklen⟩ (by
              simp only [Fin.mk_lt_mk]
              omega)
          have hgk1 : ca.get ⟨i + 1 + k, hklen⟩ = g := by
            simpa using hgk
          rw [← hgk1]
          exact Trans.trans hnext1 hstep
      exact Date.not_le.mpr hgd
    have hasof : asofCA ca r0.date = some (ca.get ⟨i, hi⟩) := by
      conv_lhs => rw [hsplit]
      exact asof_fold_last r0.date _ _ _ (by rwa [hdate] at hle) hafter
    constructor
    · rw [hc, cFlagOf, if_neg hne, hsid, hasof]
    · rw [ha, aFlagOf, if_neg hne, hsid, hasof]
  · intro hall
    by_cases hnil : ca = []
    · rw [hc, ha, cFlagOf, aFlagOf, if_pos hnil, if_pos hnil]
      exact ⟨rfl, rfl⟩
    · have hnone : asofCA ca r0.date = none := by
        unfold asofCA
        exact asof_fold_skip r0.date none ca (fun f hf => by
          rw [Date.not_le, ← hdate]
          exact hall f hf)
      rw [hc, ha, cFlagOf, aFlagOf, if_neg hnil, if_neg hnil, hsid, hnone]
      exact ⟨rfl, rfl⟩

/-- Witness for C5: two filings and four price dates straddling both end
dates. -/
theorem C5_witness :
    (([⟨⟨2024,3,31⟩, true, false⟩, ⟨⟨2024,6,30⟩, false, true⟩] :
        List CARow).Pairwise (fun x y => Date.lt x.endDate y.endDate)) ∧
    (∀ r ∈ mergeCA
      [⟨⟨2024,1,2⟩, 1, 1, 1, FVal.fin 0, FVal.fin 0, 1, 1, true, true, true, true⟩,
       ⟨⟨2024,3,31⟩, 1, 1, 1, FVal.fin 0, FVal.fin 0, 1, 1, true, true, true, true⟩,
       ⟨⟨2024,5,1⟩, 1, 1, 1, FVal.fin 0, FVal.fin 0, 1, 1, true, true, true, true⟩,
       ⟨⟨2024,7,1⟩, 1, 1, 1, FVal.fin 0, FVal.fin 0, 1, 1, true, true, true, true⟩]
      [⟨⟨2024,3,31⟩, true, false⟩, ⟨⟨2024,6,30⟩, false, true⟩],
      epsAsofSpec [⟨⟨2024,3,31⟩, true, false⟩, ⟨⟨2024,6,30⟩, false, true⟩] r) :=
  ⟨by decide,
   C5_point_in_time_join _ _ (by decide)⟩

/-- Counterexample to claim C6 as stated: a quarterly group whose
prior-year EPS is 0 and whose current EPS is 1 makes the growth ratio `+∞`
(not NaN), and the resulting C boolean is `True` (the screen passes), not
`False`: `(1 − 0)/|0| = +∞ ≥ 0.1`. -/
theorem C6_counterexample :
    caOfTicker (1/10) (1/10)
      [⟨1, 2020, 0, ⟨2020,3,31⟩⟩, ⟨1, 2021, 1, ⟨2021,3,31⟩⟩] [] =
      [⟨⟨2020,3,31⟩, false, false⟩, ⟨⟨2021,3,31⟩, true, false⟩] ∧
    (((FVal.fin 1).fsub (FVal.fin 0)).fdiv (FVal.fin 0).fabs = FVal.inf) := by
  constructor
  · norm_num +decide [caOfTicker, qFlags, aFlags, yoyFlags, dedupByDate,
      growthOk, mapState, lookupFlag, FVal.fsub, FVal.fdiv, FVal.fabs,
      FVal.fge, List.insertionSort, List.orderedInsert, List.dedup,
      List.flatMap, List.find?]
  · norm_num [FVal.fsub, FVal.fdiv, FVal.fabs]

/-- C6 (amended): within a sorted year-over-year comparison group the
growth ratio is `(eps − prev)/|prev|` evaluated with IEEE semantics; when
the prior-year EPS is 0 the ratio is NaN for `eps = 0`, `+∞` for `eps > 0`
and `−∞` for `eps < 0`, so the resulting screen boolean is `True` exactly
when `eps > 0` (for any finite threshold); the first row of a group (NaN
prior) always fails; and no exception is raised anywhere (the computation
is total). -/
theorem C6_zero_denominator (t eps : ℚ) (d1 d2 : Date)
    (rest : List (ℚ × Date)) :
    ((((FVal.fin eps).fsub (FVal.fin 0)).fdiv (FVal.fin 0).fabs) =
      (if eps = 0 then FVal.nan
       else if 0 < eps then FVal.inf else FVal.ninf)) ∧
    ((yoyFlags t ((0, d1) :: (eps, d2) :: rest)).take 2 =
      [(d1, false), (d2, decide (0 < eps))]) := by
  have hsub : (FVal.fin eps).fsub (FVal.fin 0) = FVal.fin eps := by
    simp [FVal.fsub]
  have habs : (FVal.fin (0 : ℚ)).fabs = FVal.fin 0 := by
    simp [FVal.fabs]
  have hdiv : (FVal.fin eps).fdiv (FVal.fin 0) =
      (if eps = 0 then FVal.nan
       else if 0 < eps then FVal.inf else FVal.ninf) := by
    simp [FVal.fdiv]
  constructor
  · rw [hsub, habs, hdiv]
  · have hflag1 : growthOk t FVal.nan 0 = false := by
      simp [growthOk, FVal.fsub, FVal.fabs, FVal.fdiv, FVal.fge]
    have hflag2 : growthOk t (FVal.fin 0) eps = decide (0 < eps) := by
      unfold growthOk
      rw [hsub, habs, hdiv]
      rcases lt_trichotomy eps 0 with h | h | h
      · have hn : ¬ (0 : ℚ) < eps := not_lt.mpr (le_of_lt h)
        rw [if_neg (ne_of_lt h), if_neg hn]
        simp [FVal.fge, hn]
      · subst h
        simp [FVal.fge]
      · rw [if_neg (ne_of_gt h), if_pos h]
        simp [FVal.fge, h]
    simp [yoyFlags, mapState, hflag1, hflag2]

/-! ### Look-ahead freedom: structural lemmas -/

theorem mem_takeWhile_pred (p : α → Bool) :
    ∀ l : List α, ∀ x ∈ l.takeWhile p, p x = true
  | [], x, hx => by cases hx
  | a :: as, x, hx => by
      by_cases ha : p a = true
      · rw [List.takeWhile_cons_of_pos ha] at hx
        rcases List.mem_cons.mp hx with h | h
        · rw [h]; exact ha
        · exact mem_takeWhile_pred p as x h
      · rw [List.takeWhile_cons_of_neg ha] at hx
        cases hx

theorem filter_flatMap (p : β → Bool) (g : α → List β) :
    ∀ l : List α, (l.flatMap g).filter p = l.flatMap (fun x => (g x).filter p)
  | [] => rfl
  | x :: xs => by
      simp only [List.flatMap_cons, List.filter_append, filter_flatMap p g xs]

theorem flatMap_filter_nonempty (g : α → List β) :
    ∀ l : List α, (l.filter (fun x => ! (g x).isEmpty)).flatMap g = l.flatMap g
  | [] => rfl
  | x :: xs => by
      cases hgx : g x with
      | nil =>
          simp [List.filter_cons, hgx, List.flatMap_cons,
            flatMap_filter_nonempty g xs]
      | cons b bs =>
          simp [List.filter_cons, hgx, List.flatMap_cons,
            flatMap_filter_nonempty g xs]

theorem sorted_nodup_ext {l₁ l₂ : List Nat}
    (hs₁ : l₁.Sorted (· ≤ ·)) (hs₂ : l₂.Sorted (· ≤ ·))
    (hn₁ : l₁.Nodup) (hn₂ : l₂.Nodup)
    (hm : ∀ x, x ∈ l₁ ↔ x ∈ l₂) : l₁ = l₂ :=
  List.eq_of_perm_of_sorted ((List.perm_ext_iff_of_nodup hn₁ hn₂).mpr hm)
    hs₁ hs₂

theorem dedupByDate_congr_seen :
    ∀ (l : List (Date × Bool)) (seen₁ seen₂ : List Date),
      (∀ y ∈ l, (y.1 ∈ seen₁ ↔ y.1 ∈ seen₂)) →
      dedupByDate seen₁ l = dedupByDate seen₂ l
  | [], _, _, _ => rfl
  | e :: rest, s1, s2, h => by
      have he := h e (List.mem_cons_self e rest)
      have hrest := fun y hy => h y (List.mem_cons_of_mem e hy)
      by_cases h1 : e.1 ∈ s1
      · rw [dedupByDate, dedupByDate, if_pos h1, if_pos (he.mp h1)]
        exact dedupByDate_congr_seen rest s1 s2 hrest
      · have h2 : e.1 ∉ s2 := fun hc => h1 (he.mpr hc)
        rw [dedupByDate, dedupByDate, if_neg h1, if_neg h2]
        congr 1
        refine dedupByDate_congr_seen rest (e.1 :: s1) (e.1 :: s2) ?_
        intro y hy
        simp only [List.mem_cons]
        rw [hrest y hy]

theorem dedupByDate_cons_seen (x : Date) (l : List (Date × Bool))
    (seen : List Date) (h : ∀ y ∈ l, y.1 ≠ x) :
    dedupByDate (x :: seen) l = dedupByDate seen l := by
  refine dedupByDate_congr_seen l (x :: seen) seen ?_
  intro y hy
  simp only [List.mem_cons]
  constructor
  · rintro (hc | hc)
    · exact absurd hc (h y hy)
    · exact hc
  · exact Or.inr

theorem filter_dedupByDate (p : Date → Bool) :
    ∀ (l : List (Date × Bool)) (seen : List Date),
      (dedupByDate seen l).filter (fun e => p e.1) =
        dedupByDate seen (l.filter (fun e => p e.1))
  | [], _ => rfl
  | e :: rest, seen => by
      by_cases hm : e.1 ∈ seen
      · by_cases hp : p e.1 = true
        · rw [dedupByDate, if_pos hm, List.filter_cons, if_pos hp,
            dedupByDate, if_pos hm]
          exact filter_dedupByDate p rest seen
        · simp only [Bool.not_eq_true] at hp
          rw [dedupByDate, if_pos hm, List.filter_cons]
          simp only [hp, Bool.false_eq_true, if_false]
          exact filter_dedupByDate p rest seen
      · by_cases hp : p e.1 = true
        · rw [dedupByDate, if_neg hm, List.filter_cons, if_pos hp,
            List.filter_cons, if_pos hp, dedupByDate, if_neg hm]
          congr 1
          exact filter_dedupByDate p rest (e.1 :: seen)
        · simp only [Bool.not_eq_true] at hp
          rw [dedupByDate, if_neg hm, List.filter_cons, List.filter_cons]
          simp only [hp, Bool.false_eq_true, if_false]
          rw [filter_dedupByDate p rest (e.1 :: seen)]
          refine dedupByDate_cons_seen e.1 _ seen ?_
          intro y hy
          have hyp := (List.mem_filter.mp hy).2
          intro hc
          rw [hc] at hyp
          rw [hp] at hyp
          cases hyp

theorem yoyFlags_fst_aux (t : ℚ) :
    ∀ (st : FVal) (l : List (ℚ × Date)),
      (mapState (fun prev e => ((e.2, growthOk t prev e.1), FVal.fin e.1))
        st l).map Prod.fst = l.map Prod.snd
  | _, [] => rfl
  | st, e :: rest => by
      simp only [mapState, List.map_cons]
      rw [yoyFlags_fst_aux t _ rest]

theorem yoyFlags_fst (t : ℚ) (l : List (ℚ × Date)) :
    (yoyFlags t l).map Prod.fst = l.map Prod.snd :=
  yoyFlags_fst_aux t FVal.nan l

theorem yoyFlags_take (t : ℚ) (l : List (ℚ × Date)) (k : Nat) :
    (yoyFlags t l).take k = yoyFlags t (l.take k) :=
  mapState_take _ _ _ _

theorem yoyFlags_length (t : ℚ) (l : List (ℚ × Date)) :
    (yoyFlags t l).length = l.length :=
  mapState_length _ _ _

theorem marketReturns_fst_aux :
    ∀ (st : FVal) (l : List MBar),
      (mapState mretStep st l).map Prod.fst = l.map (fun b => b.date)
  | _, [] => rfl
  | st, b :: rest => by
      simp only [mapState, List.map_cons, mretStep]
      rw [marketReturns_fst_aux _ rest]

theorem marketReturns_fst (m : List MBar) :
    (marketReturns m).map Prod.fst =
      (m.insertionSort mbarLe).map (fun b => b.date) :=
  marketReturns_fst_aux FVal.nan _

theorem marketReturns_take (m : List MBar) (k : Nat) :
    (marketReturns m).take k =
      mapState mretStep FVal.nan ((m.insertionSort mbarLe).take k) :=
  mapState_take _ _ _ _

theorem rollWindows_take (w : Nat) (l : List ℚ) (k : Nat) :
    (rollWindows w l).take k = rollWindows w (l.take k) :=
  mapState_take _ _ _ _

theorem rollWindows_length (w : Nat) (l : List ℚ) :
    (rollWindows w l).length = l.length :=
  mapState_length _ _ _

theorem rollMean_take (w : Nat) (l : List ℚ) (k : Nat) :
    (rollMean w l).take k = rollMean w (l.take k) := by
  unfold rollMean
  rw [← List.map_take, rollWindows_take]

theorem rollMax_take (w : Nat) (l : List ℚ) (k : Nat) :
    (rollMax w l).take k = rollMax w (l.take k) := by
  unfold rollMax
  rw [← List.map_take, rollWindows_take]

theorem rollMean_length (w : Nat) (l : List ℚ) :
    (rollMean w l).length = l.length := by
  unfold rollMean
  rw [List.length_map, rollWindows_length]

theorem rollMax_length (w : Nat) (l : List ℚ) :
    (rollMax w l).length = l.length := by
  unfold rollMax
  rw [List.length_map, rollWindows_length]

theorem pctChangeFilled_take (l : List ℚ) (k : Nat) :
    (pctChangeFilled l).take k = pctChangeFilled (l.take k) :=
  mapState_take _ _ _ _

theorem pctChangeFilled_length (l : List ℚ) :
    (pctChangeFilled l).length = l.length :=
  mapState_length _ _ _

theorem buildNRows_take (mret : List (Date × FVal)) :
    ∀ (s : List SBar) (rs : List FVal) (hs vs : List ℚ) (k : Nat),
      (buildNRows mret s rs hs vs).take k =
        buildNRows mret (s.take k) (rs.take k) (hs.take k) (vs.take k)
  | [], rs, hs, vs, k => by cases rs <;> cases hs <;> cases vs <;>
      simp [buildNRows]
  | b :: bs, [], hs, vs, k => by cases hs <;> cases vs <;> simp [buildNRows]
  | b :: bs, r :: rs, [], vs, k => by cases vs <;> simp [buildNRows]
  | b :: bs, r :: rs, h :: hs, [], k => by simp [buildNRows]
  | b :: bs, r :: rs, h :: hs, v :: vs, 0 => by simp [buildNRows]
  | b :: bs, r :: rs, h :: hs, v :: vs, k + 1 => by
      simp only [buildNRows, List.take_succ_cons]
      rw [buildNRows_take mret bs rs hs vs k]

theorem buildNRows_map_date (mret : List (Date × FVal)) :
    ∀ (s : List SBar) (rs : List FVal) (hs vs : List ℚ),
      rs.length = s.length → hs.length = s.length → vs.length = s.length →
      (buildNRows mret s rs hs vs).map (fun r => r.date) =
        s.map (fun b => b.date)
  | [], rs, hs, vs, _, _, _ => by
      cases rs <;> cases hs <;> cases vs <;> simp [buildNRows]
  | b :: bs, [], hs, vs, hr, _, _ => by cases hr
  | b :: bs, r :: rs, [], vs, _, hh, _ => by cases hh
  | b :: bs, r :: rs, h :: hs, [], _, _, hv => by cases hv
  | b :: bs, r :: rs, h :: hs, v :: vs, hr, hh, hv => by
      simp only [buildNRows, List.map_cons]
      rw [buildNRows_map_date mret bs rs hs vs (by simpa using hr)
        (by simpa using hh) (by simpa using hv)]

theorem buildNRows_congr (mret1 mret2 : List (Date × FVal)) :
    ∀ (s : List SBar) (rs : List FVal) (hs vs : List ℚ),
      (∀ b ∈ s, marketRetOn mret1 b.date = marketRetOn mret2 b.date) →
      buildNRows mret1 s rs hs vs = buildNRows mret2 s rs hs vs
  | [], rs, hs, vs, _ => by cases rs <;> cases hs <;> cases vs <;>
      simp [buildNRows]
  | b :: bs, [], hs, vs, _ => by cases hs <;> cases vs <;> simp [buildNRows]
  | b :: bs, r :: rs, [], vs, _ => by cases vs <;> simp [buildNRows]
  | b :: bs, r :: rs, h :: hs, [], _ => by simp [buildNRows]
  | b :: bs, r :: rs, h :: hs, v :: vs, hcongr => by
      have hb := hcongr b (List.mem_cons_self b bs)
      simp only [buildNRows, hb]
      rw [buildNRows_congr mret1 mret2 bs rs hs vs
        (fun x hx => hcongr x (List.mem_cons_of_mem b hx))]

theorem buildMRows_take :
    ∀ (s : List MBar) (xs ys : List ℚ) (k : Nat),
      (buildMRows s xs ys).take k =
        buildMRows (s.take k) (xs.take k) (ys.take k)
  | [], xs, ys, k => by cases xs <;> cases ys <;> simp [buildMRows]
  | b :: bs, [], ys, k => by cases ys <;> simp [buildMRows]
  | b :: bs, x :: xs, [], k => by simp [buildMRows]
  | b :: bs, x :: xs, y :: ys, 0 => by simp [buildMRows]
  | b :: bs, x :: xs, y :: ys, k + 1 => by
      simp only [buildMRows, List.take_succ_cons]
      rw [buildMRows_take bs xs ys k]

theorem buildMRows_map_date :
    ∀ (s : List MBar) (xs ys : List ℚ),
      xs.length = s.length → ys.length = s.length →
      (buildMRows s xs ys).map (fun r => r.date) = s.map (fun b => b.date)
  | [], xs, ys, _, _ => by cases xs <;> cases ys <;> simp [buildMRows]
  | b :: bs, [], ys, hx, _ => by cases hx
  | b :: bs, x :: xs, [], _, hy => by cases hy
  | b :: bs, x :: xs, y :: ys, hx, hy => by
      simp only [buildMRows, List.map_cons]
      rw [buildMRows_map_date bs xs ys (by simpa using hx)
        (by simpa using hy)]

/-- Filtering a date-key-sorted list by "key on or before `d`" takes its
initial segment. -/
theorem sorted_key_filter_takeWhile {α} (key : α → Date) (d : Date)
    (l : List α) (hs : l.Pairwise (fun x y => Date.le (key x) (key y))) :
    l.filter (fun x => Date.le (key x) d) =
      l.takeWhile (fun x => Date.le (key x) d) :=
  filter_eq_takeWhile_of_sorted _
    (fun _ _ hr hp => decide_eq_true
      (Date.le_trans' hr (of_decide_eq_true hp))) l hs

theorem takeWhile_length_map {α β} (f : α → β) (p : β → Bool) (l : List α) :
    ((l.map f).takeWhile p).length =
      (l.takeWhile (fun x => p (f x))).length := by
  rw [List.takeWhile_map, List.length_map]
  rfl

/-- Two date-sorted lists agreeing on their "on or before `d`" rows share
that initial segment. -/
theorem sorted_key_prefix_eq {α} (key : α → Date) (d : Date)
    (l1 l2 : List α)
    (h1 : l1.Pairwise (fun x y => Date.le (key x) (key y)))
    (h2 : l2.Pairwise (fun x y => Date.le (key x) (key y)))
    (hf : l1.filter (fun x => Date.le (key x) d) =
      l2.filter (fun x => Date.le (key x) d)) :
    l1.takeWhile (fun x => Date.le (key x) d) =
      l2.takeWhile (fun x => Date.le (key x) d) := by
  rw [← sorted_key_filter_takeWhile key d l1 h1,
    ← sorted_key_filter_takeWhile key d l2 h2]
  exact hf

/-- The merged market return at any date on or before `d` only depends on
market rows dated on or before `d`. -/
theorem marketRetOn_congr (m1 m2 : List MBar) (d q : Date)
    (hm : m1.filter (fun b => Date.le b.date d) =
      m2.filter (fun b => Date.le b.date d))
    (hq : Date.le q d) :
    marketRetOn (marketReturns m1) q = marketRetOn (marketReturns m2) q := by
  have hs1 : (m1.insertionSort mbarLe).Pairwise
      (fun x y : MBar => Date.le x.date y.date) :=
    List.sorted_insertionSort mbarLe m1
  have hs2 : (m2.insertionSort mbarLe).Pairwise
      (fun x y : MBar => Date.le x.date y.date) :=
    List.sorted_insertionSort mbarLe m2
  have hf : (m1.insertionSort mbarLe).filter (fun b => Date.le b.date d) =
      (m2.insertionSort mbarLe).filter (fun b => Date.le b.date d) := by
    rw [filter_insertionSort, filter_insertionSort, hm]
  have htw := sorted_key_prefix_eq (fun b : MBar => b.date) d _ _ hs1 hs2 hf
  have himp : ∀ e : Date × FVal, decide (e.1 = q) = true →
      decide (Date.le e.1 d) = true := by
    intro e h
    exact decide_eq_true (by rw [of_decide_eq_true h]; exact hq)
  have hfiltered : ∀ m : List MBar,
      (marketReturns m).filter (fun e => Date.le e.1 d) =
        mapState mretStep FVal.nan
          ((m.insertionSort mbarLe).takeWhile
            (fun b => Date.le b.date d)) := by
    intro m
    have hmap : (marketReturns m).map Prod.fst =
        (m.insertionSort mbarLe).map (fun b => b.date) := marketReturns_fst m
    have hsm : (m.insertionSort mbarLe).Pairwise
        (fun x y : MBar => Date.le x.date y.date) :=
      List.sorted_insertionSort mbarLe m
    have hpair : (marketReturns m).Pairwise (fun x y => Date.le x.1 y.1) := by
      have hmp : ((marketReturns m).map Prod.fst).Pairwise Date.le := by
        rw [hmap]
        exact (List.pairwise_map).mpr hsm
      exact (List.pairwise_map).mp hmp
    have e1 := sorted_key_filter_takeWhile (fun e : Date × FVal => e.1) d
      (marketReturns m) hpair
    have hK : ((marketReturns m).takeWhile
        (fun e => Date.le e.1 d)).length =
        ((m.insertionSort mbarLe).takeWhile
          (fun b => Date.le b.date d)).length := by
      have t1 := takeWhile_length_map Prod.fst
        (fun dt => decide (Date.le dt d)) (marketReturns m)
      have t2 := takeWhile_length_map (fun b : MBar => b.date)
        (fun dt => decide (Date.le dt d)) (m.insertionSort mbarLe)
      rw [← t1, hmap, t2]
    rw [e1, ← take_length_takeWhile (fun e => decide (Date.le e.1 d))
      (marketReturns m), hK, marketReturns_take,
      take_length_takeWhile]
  have hfind : (marketReturns m1).find? (fun e => e.1 = q) =
      (marketReturns m2).find? (fun e => e.1 = q) := by
    rw [← find?_filter_of_imp _ _ himp (marketReturns m1),
      ← find?_filter_of_imp _ _ himp (marketReturns m2)]
    rw [hfiltered m1, hfiltered m2, htw]
  unfold marketRetOn
  rw [hfind]

/-- The "on or before `d`" rows of `calculate_m` are computed from the
market rows on or before `d`. -/
theorem calcM_filter_front (m : List MBar) (d : Date) :
    (calcM m).filter (fun r => Date.le r.date d) =
      buildMRows
        ((m.insertionSort mbarLe).takeWhile (fun b => Date.le b.date d))
        (rollMean 50
          (((m.insertionSort mbarLe).takeWhile
            (fun b => Date.le b.date d)).map (fun b => b.close)))
        (rollMean 200
          (((m.insertionSort mbarLe).takeWhile
            (fun b => Date.le b.date d)).map (fun b => b.close))) := by
  have hsm : (m.insertionSort mbarLe).Pairwise
      (fun x y : MBar => Date.le x.date y.date) :=
    List.sorted_insertionSort mbarLe m
  have hlen50 : (rollMean 50 ((m.insertionSort mbarLe).map
      (fun b => b.close))).length = (m.insertionSort mbarLe).length := by
    rw [rollMean_length, List.length_map]
  have hlen200 : (rollMean 200 ((m.insertionSort mbarLe).map
      (fun b => b.close))).length = (m.insertionSort mbarLe).length := by
    rw [rollMean_length, List.length_map]
  have hmapd : (calcM m).map (fun r => r.date) =
      (m.insertionSort mbarLe).map (fun b => b.date) := by
    unfold calcM
    exact buildMRows_map_date _ _ _ hlen50 hlen200
  have hpair : (calcM m).Pairwise (fun x y => Date.le x.date y.date) := by
    have hmp : ((calcM m).map (fun r => r.date)).Pairwise Date.le := by
      rw [hmapd]
      exact (List.pairwise_map).mpr hsm
    exact (List.pairwise_map).mp hmp
  have hK : ((calcM m).takeWhile (fun r => Date.le r.date d)).length =
      ((m.insertionSort mbarLe).takeWhile
        (fun b => Date.le b.date d)).length := by
    have t1 := takeWhile_length_map (fun r : MRow => r.date)
      (fun dt => decide (Date.le dt d)) (calcM m)
    have t2 := takeWhile_length_map (fun b : MBar => b.date)
      (fun dt => decide (Date.le dt d)) (m.insertionSort mbarLe)
    rw [← t1, hmapd, t2]
  rw [sorted_key_filter_takeWhile (fun r : MRow => r.date) d _ hpair,
    ← take_length_takeWhile (fun r => decide (Date.le r.date d)) (calcM m),
    hK]
  show (buildMRows _ _ _).take _ = _
  rw [buildMRows_take, rollMean_take, rollMean_take, ← List.map_take,
    take_length_takeWhile]

/-- C1 for the `M` column: the market-direction rows on or before `d` are
unchanged under any perturbation of market rows dated after `d`. -/
theorem calcM_filter_congr (m1 m2 : List MBar) (d : Date)
    (hm : m1.filter (fun b => Date.le b.date d) =
      m2.filter (fun b => Date.le b.date d)) :
    (calcM m1).filter (fun r => Date.le r.date d) =
      (calcM m2).filter (fun r => Date.le r.date d) := by
  have hf : (m1.insertionSort mbarLe).filter (fun b => Date.le b.date d) =
      (m2.insertionSort mbarLe).filter (fun b => Date.le b.date d) := by
    rw [filter_insertionSort, filter_insertionSort, hm]
  have htw := sorted_key_prefix_eq (fun b : MBar => b.date) d _ _
    (List.sorted_insertionSort mbarLe m1)
    (List.sorted_insertionSort mbarLe m2) hf
  rw [calcM_filter_front, calcM_filter_front, htw]

/-- The "on or before `d`" rows of `calculate_nsli` are computed from the
stock rows on or before `d` (and the full market-return table, whose
lookups at those dates are handled separately). -/
theorem calcNSLI_filter_front (stocks : List SBar) (market : List MBar)
    (d : Date) :
    (calcNSLI stocks market).filter (fun r => Date.le r.date d) =
      buildNRows (marketReturns market)
        ((stocks.insertionSort sbarLe).takeWhile
          (fun b => Date.le b.date d))
        (pctChangeFilled
          (((stocks.insertionSort sbarLe).takeWhile
            (fun b => Date.le b.date d)).map (fun b => b.closePrice)))
        (rollMax 252
          (((stocks.insertionSort sbarLe).takeWhile
            (fun b => Date.le b.date d)).map (fun b => b.closePrice)))
        (rollMean 50
          (((stocks.insertionSort sbarLe).takeWhile
            (fun b => Date.le b.date d)).map (fun b => b.volume))) := by
  have hss : (stocks.insertionSort sbarLe).Pairwise
      (fun x y : SBar => Date.le x.date y.date) :=
    List.sorted_insertionSort sbarLe stocks
  have hlenr : (pctChangeFilled ((stocks.insertionSort sbarLe).map
      (fun b => b.closePrice))).length =
      (stocks.insertionSort sbarLe).length := by
    rw [pctChangeFilled_length, List.length_map]
  have hlenh : (rollMax 252 ((stocks.insertionSort sbarLe).map
      (fun b => b.closePrice))).length =
      (stocks.insertionSort sbarLe).length := by
    rw [rollMax_length, List.length_map]
  have hlenv : (rollMean 50 ((stocks.insertionSort sbarLe).map
      (fun b => b.volume))).length =
      (stocks.insertionSort sbarLe).length := by
    rw [rollMean_length, List.length_map]
  have hmapd : (calcNSLI stocks market).map (fun r => r.date) =
      (stocks.insertionSort sbarLe).map (fun b => b.date) := by
    unfold calcNSLI
    exact buildNRows_map_date _ _ _ _ _ hlenr hlenh hlenv
  have hpair : (calcNSLI stocks market).Pairwise
      (fun x y => Date.le x.date y.date) := by
    have hmp : ((calcNSLI stocks market).map
        (fun r => r.date)).Pairwise Date.le := by
      rw [hmapd]
      exact (List.pairwise_map).mpr hss
    exact (List.pairwise_map).mp hmp
  have hK : ((calcNSLI stocks market).takeWhile
      (fun r => Date.le r.date d)).length =
      ((stocks.insertionSort sbarLe).takeWhile
        (fun b => Date.le b.date d)).length := by
    have t1 := takeWhile_length_map (fun r : NRow => r.date)
      (fun dt => decide (Date.le dt d)) (calcNSLI stocks market)
    have t2 := takeWhile_length_map (fun b : SBar => b.date)
      (fun dt => decide (Date.le dt d)) (stocks.insertionSort sbarLe)
    rw [← t1, hmapd, t2]
  rw [sorted_key_filter_takeWhile (fun r : NRow => r.date) d _ hpair,
    ← take_length_takeWhile (fun r => decide (Date.le r.date d))
      (calcNSLI stocks market), hK]
  show (buildNRows _ _ _ _ _).take _ = _
  rw [buildNRows_take, pctChangeFilled_take, rollMax_take, rollMean_take,
    ← List.map_take, ← List.map_take, take_length_takeWhile]

/-- C1 for the price-derived columns: the enriched stock rows on or before
`d` are unchanged under any perturbation of stock or market rows dated
after `d`. -/
theorem calcNSLI_filter_congr (s1 s2 : List SBar) (m1 m2 : List MBar)
    (d : Date)
    (hm : m1.filter (fun b => Date.le b.date d) =
      m2.filter (fun b => Date.le b.date d))
    (hs : s1.filter (fun b => Date.le b.date d) =
      s2.filter (fun b => Date.le b.date d)) :
    (calcNSLI s1 m1).filter (fun r => Date.le r.date d) =
      (calcNSLI s2 m2).filter (fun r => Date.le r.date d) := by
  have hf : (s1.insertionSort sbarLe).filter (fun b => Date.le b.date d) =
      (s2.insertionSort sbarLe).filter (fun b => Date.le b.date d) := by
    rw [filter_insertionSort, filter_insertionSort, hs]
  have htw := sorted_key_prefix_eq (fun b : SBar => b.date) d _ _
    (List.sorted_insertionSort sbarLe s1)
    (List.sorted_insertionSort sbarLe s2) hf
  rw [calcNSLI_filter_front, calcNSLI_filter_front, htw]
  refine buildNRows_congr _ _ _ _ _ _ ?_
  intro b hb
  have hpd := mem_takeWhile_pred _ _ b hb
  exact marketRetOn_congr m1 m2 d b.date hm (of_decide_eq_true hpd)

theorem filter_swap (p q : α → Bool) (l : List α) :
    (l.filter p).filter q = (l.filter q).filter p := by
  rw [List.filter_filter, List.filter_filter]
  exact List.filter_congr (fun x _ => Bool.and_comm _ _)

/-- Restricting twice, first to `≤ d` then to `≤ dt` with `dt ≤ d`, is the
same as restricting once to `≤ dt`. -/
theorem filter_le_filter_le (d dt : Date) (hdt : Date.le dt d)
    (ca : List CARow) :
    (ca.filter (fun e => Date.le e.endDate d)).filter
      (fun e => Date.le e.endDate dt) =
      ca.filter (fun e => Date.le e.endDate dt) := by
  rw [List.filter_filter]
  refine List.filter_congr ?_
  intro e _
  by_cases h : Date.le e.endDate dt
  · simp [h, Date.le_trans' h hdt]
  · simp [h]

/-- The as-of fold only reads rows with end date on or before the query. -/
theorem asofCA_filter (dt : Date) :
    ∀ (ca : List CARow) (acc : Option CARow),
      ca.foldl (fun acc e => if Date.le e.endDate dt then some e else acc)
        acc =
        (ca.filter (fun e => Date.le e.endDate dt)).foldl
          (fun _ e => some e) acc
  | [], _ => rfl
  | e :: rest, acc => by
      by_cases h : Date.le e.endDate dt
      · simp only [List.foldl_cons, if_pos h, List.filter_cons,
          decide_eq_true h, if_true]
        exact asofCA_filter dt rest (some e)
      · simp only [List.foldl_cons, if_neg h, List.filter_cons]
        rw [decide_eq_false h]
        simp only [Bool.false_eq_true, if_false]
        exact asofCA_filter dt rest acc

theorem cFlagOf_eq (ca : List CARow) (dt : Date) :
    cFlagOf ca dt =
      (match asofCA (ca.insertionSort caLe) dt with
       | some e => e.c
       | none => false) := by
  by_cases h : ca = []
  · subst h
    rfl
  · rw [cFlagOf, if_neg h]

theorem aFlagOf_eq (ca : List CARow) (dt : Date) :
    aFlagOf ca dt =
      (match asofCA (ca.insertionSort caLe) dt with
       | some e => e.a
       | none => false) := by
  by_cases h : ca = []
  · subst h
    rfl
  · rw [aFlagOf, if_neg h]

/-- The C/A flag a row dated on or before `d` receives only depends on the
filings with end date on or before `d`. -/
theorem flagOf_congr (ca1 ca2 : List CARow) (d dt : Date)
    (hca : ca1.filter (fun e => Date.le e.endDate d) =
      ca2.filter (fun e => Date.le e.endDate d))
    (hdt : Date.le dt d) :
    cFlagOf ca1 dt = cFlagOf ca2 dt ∧ aFlagOf ca1 dt = aFlagOf ca2 dt := by
  have hasof : asofCA (ca1.insertionSort caLe) dt =
      asofCA (ca2.insertionSort caLe) dt := by
    unfold asofCA
    rw [asofCA_filter, asofCA_filter, filter_insertionSort,
      filter_insertionSort, ← filter_le_filter_le d dt hdt ca1,
      ← filter_le_filter_le d dt hdt ca2, hca]
  rw [cFlagOf_eq, cFlagOf_eq, aFlagOf_eq, aFlagOf_eq, hasof]
  exact ⟨rfl, rfl⟩

/-- A flag lookup at a date on or before `d` only depends on the entries
dated on or before `d`. -/
theorem lookupFlag_congr (l1 l2 : List (Date × Bool)) (d dt : Date)
    (h : l1.filter (fun e => Date.le e.1 d) =
      l2.filter (fun e => Date.le e.1 d))
    (hdt : Date.le dt d) :
    lookupFlag l1 dt = lookupFlag l2 dt := by
  have himp : ∀ e : Date × Bool, decide (e.1 = dt) = true →
      decide (Date.le e.1 d) = true := by
    intro e he
    exact decide_eq_true (by rw [of_decide_eq_true he]; exact hdt)
  unfold lookupFlag
  rw [← find?_filter_of_imp _ _ himp l1, ← find?_filter_of_imp _ _ himp l2,
    h]

/-- The flags of a year-over-year group restricted to end dates on or
before `d` are computed from the group rows with end date on or before
`d` (for an end-date-monotone group). -/
theorem yoyFlags_filter_front (t : ℚ) (d : Date) (g : List (ℚ × Date))
    (hmono : g.Pairwise (fun x y => Date.le x.2 y.2)) :
    (yoyFlags t g).filter (fun e => Date.le e.1 d) =
      yoyFlags t (g.takeWhile (fun x => Date.le x.2 d)) := by
  have hmap : (yoyFlags t g).map Prod.fst = g.map Prod.snd := yoyFlags_fst t g
  have hpair : (yoyFlags t g).Pairwise (fun x y => Date.le x.1 y.1) := by
    have hmp : ((yoyFlags t g).map Prod.fst).Pairwise Date.le := by
      rw [hmap]
      exact (List.pairwise_map).mpr hmono
    exact (List.pairwise_map).mp hmp
  have hK : ((yoyFlags t g).takeWhile (fun e => Date.le e.1 d)).length =
      (g.takeWhile (fun x => Date.le x.2 d)).length := by
    have t1 := takeWhile_length_map Prod.fst
      (fun dt => decide (Date.le dt d)) (yoyFlags t g)
    have t2 := takeWhile_length_map Prod.snd
      (fun dt => decide (Date.le dt d)) g
    rw [← t1, hmap, t2]
  rw [sorted_key_filter_takeWhile (fun e : Date × Bool => e.1) d _ hpair,
    ← take_length_takeWhile (fun e => decide (Date.le e.1 d)) (yoyFlags t g),
    hK, yoyFlags_take, take_length_takeWhile]

/-- The annual flags with end date on or before `d` only depend on annual
filings with end date on or before `d`. -/
theorem aFlags_filter_congr (t : ℚ) (d : Date) (a1 a2 : List ARow)
    (ha : a1.filter (fun r => Date.le r.endDate d) =
      a2.filter (fun r => Date.le r.endDate d))
    (hm1 : aMonotone a1) (hm2 : aMonotone a2) :
    (aFlags t a1).filter (fun e => Date.le e.1 d) =
      (aFlags t a2).filter (fun e => Date.le e.1 d) := by
  have key : ∀ (a : List ARow), aMonotone a →
      (aFlags t a).filter (fun e => Date.le e.1 d) =
        yoyFlags t (((a.insertionSort aLe).filter
          (fun r => Date.le r.endDate d)).map (fun r => (r.eps, r.endDate))) := by
    intro a hm
    unfold aFlags
    have hmono : ((a.insertionSort aLe).map
        (fun r => (r.eps, r.endDate))).Pairwise
        (fun x y => Date.le x.2 y.2) :=
      (List.pairwise_map).mpr hm
    rw [yoyFlags_filter_front t d _ hmono, List.takeWhile_map]
    have hcomp : ((fun x : ℚ × Date => decide (Date.le x.2 d)) ∘
        fun r : ARow => (r.eps, r.endDate)) =
        (fun r : ARow => decide (Date.le r.endDate d)) := rfl
    rw [hcomp, ← sorted_key_filter_takeWhile (fun r : ARow => r.endDate) d _ hm]
  rw [key a1 hm1, key a2 hm2, filter_insertionSort, filter_insertionSort, ha]

theorem flatMap_congr_left (l : List α) (f g : α → List β)
    (h : ∀ x ∈ l, f x = g x) : l.flatMap f = l.flatMap g := by
  unfold List.flatMap
  rw [List.map_congr_left h]

/-- The quarterly flags with end date on or before `d` only depend on
quarterly filings with end date on or before `d`, provided each
fiscal-period group has monotone end dates. -/
theorem qFlags_filter_congr (t : ℚ) (d : Date) (q1 q2 : List QRow)
    (hq : q1.filter (fun r => Date.le r.endDate d) =
      q2.filter (fun r => Date.le r.endDate d))
    (hm1 : qGroupMonotone q1) (hm2 : qGroupMonotone q2) :
    (qFlags t q1).filter (fun e => Date.le e.1 d) =
      (qFlags t q2).filter (fun e => Date.le e.1 d) := by
  have key : ∀ q : List QRow, qGroupMonotone q →
      (qFlags t q).filter (fun e => Date.le e.1 d) =
      ((((q.insertionSort qLe).map
        (fun r => r.fiscalPeriod)).dedup).insertionSort (· ≤ ·)).flatMap
        (fun p => yoyFlags t
          ((((q.filter (fun r => Date.le r.endDate d)).insertionSort
            qLe).filter (fun r => r.fiscalPeriod = p)).map
            (fun r => (r.eps, r.endDate)))) := by
    intro q hm
    unfold qFlags
    rw [filter_flatMap]
    refine flatMap_congr_left _ _ _ ?_
    intro p hp
    have hpmem : p ∈ q.map (fun r => r.fiscalPeriod) := by
      have h1 : p ∈ ((q.insertionSort qLe).map
          (fun r => r.fiscalPeriod)).dedup :=
        (List.mem_insertionSort _).mp hp
      obtain ⟨r, hr, hrp⟩ := List.mem_map.mp (List.mem_dedup.mp h1)
      exact List.mem_map.mpr ⟨r, (List.mem_insertionSort _).mp hr, hrp⟩
    have hmono := hm p hpmem
    have hmonop : (((q.insertionSort qLe).filter
        (fun r => r.fiscalPeriod = p)).map
        (fun r => (r.eps, r.endDate))).Pairwise
        (fun x y => Date.le x.2 y.2) :=
      (List.pairwise_map).mpr hmono
    rw [yoyFlags_filter_front t d _ hmonop, List.takeWhile_map]
    have hcomp : ((fun x : ℚ × Date => decide (Date.le x.2 d)) ∘
        fun r : QRow => (r.eps, r.endDate)) =
        (fun r : QRow => decide (Date.le r.endDate d)) := rfl
    rw [hcomp,
      ← sorted_key_filter_takeWhile (fun r : QRow => r.endDate) d _ hmono,
      filter_swap, filter_insertionSort]
  rw [key q1 hm1, key q2 hm2, hq]
  set g : Nat → List (Date × Bool) := fun p => yoyFlags t
    ((((q2.filter (fun r => Date.le r.endDate d)).insertionSort
      qLe).filter (fun r => r.fiscalPeriod = p)).map
      (fun r => (r.eps, r.endDate))) with hgdef
  have hback : ∀ (q : List QRow), q.filter (fun r => Date.le r.endDate d) =
      q2.filter (fun r => Date.le r.endDate d) →
      ∀ p : Nat, (! (g p).isEmpty) = true →
      p ∈ (((q.insertionSort qLe).map
        (fun r => r.fiscalPeriod)).dedup).insertionSort (· ≤ ·) := by
    intro q hfq p hne
    have hgne : g p ≠ [] := by
      intro hc
      rw [hc] at hne
      simp at hne
    have hFne : ((q2.filter (fun r => Date.le r.endDate d)).insertionSort
        qLe).filter (fun r => r.fiscalPeriod = p) ≠ [] := by
      intro hc
      apply hgne
      rw [hgdef]
      show yoyFlags t (List.map _ _) = []
      rw [hc]
      rfl
    obtain ⟨r, hr⟩ := List.exists_mem_of_ne_nil _ hFne
    have hrmem := List.mem_filter.mp hr
    have hrq : r ∈ q := by
      have h1 : r ∈ (q2.filter (fun r => Date.le r.endDate d)).insertionSort
          qLe := hrmem.1
      have h2 : r ∈ q2.filter (fun r => Date.le r.endDate d) :=
        (List.mem_insertionSort _).mp h1
      rw [← hfq] at h2
      exact List.mem_of_mem_filter h2
    have hrp : r.fiscalPeriod = p := by
      have := hrmem.2
      exact of_decide_eq_true this
    refine (List.mem_insertionSort _).mpr ?_
    refine List.mem_dedup.mpr ?_
    exact List.mem_map.mpr ⟨r, (List.mem_insertionSort _).mpr hrq, hrp⟩
  rw [← flatMap_filter_nonempty g
    (((( q1.insertionSort qLe).map
      (fun r => r.fiscalPeriod)).dedup).insertionSort (· ≤ ·)),
    ← flatMap_filter_nonempty g
    ((((q2.insertionSort qLe).map
      (fun r => r.fiscalPeriod)).dedup).insertionSort (· ≤ ·))]
  congr 1
  have hsorted : ∀ q : List QRow,
      ((((q.insertionSort qLe).map
        (fun r => r.fiscalPeriod)).dedup).insertionSort
        (· ≤ ·)).Sorted (fun a b : Nat => a ≤ b) := by
    intro q
    exact List.sorted_insertionSort _ _
  have hnodup : ∀ q : List QRow,
      ((((q.insertionSort qLe).map
        (fun r => r.fiscalPeriod)).dedup).insertionSort (· ≤ ·)).Nodup := by
    intro q
    exact ((List.perm_insertionSort _ _).nodup_iff).mpr (List.nodup_dedup _)
  refine sorted_nodup_ext
    ((hsorted q1).filter _) ((hsorted q2).filter _)
    ((hnodup q1).filter _) ((hnodup q2).filter _) ?_
  intro p
  simp only [List.mem_filter]
  constructor
  · rintro ⟨_, hne⟩
    exact ⟨hback q2 rfl p hne, hne⟩
  · rintro ⟨_, hne⟩
    exact ⟨hback q1 hq p hne, hne⟩

/-- The merged C/A frame restricted to end dates on or before `d` only
depends on filings with end date on or before `d` (given group-monotone
end dates). -/
theorem caOfTicker_filter_congr (cT aT : ℚ) (d : Date)
    (q1 q2 : List QRow) (a1 a2 : List ARow)
    (hq : q1.filter (fun r => Date.le r.endDate d) =
      q2.filter (fun r => Date.le r.endDate d))
    (ha : a1.filter (fun r => Date.le r.endDate d) =
      a2.filter (fun r => Date.le r.endDate d))
    (hm1 : qGroupMonotone q1) (hm2 : qGroupMonotone q2)
    (hma1 : aMonotone a1) (hma2 : aMonotone a2) :
    (caOfTicker cT aT q1 a1).filter (fun r => Date.le r.endDate d) =
      (caOfTicker cT aT q2 a2).filter (fun r => Date.le r.endDate d) := by
  have hqca : (dedupByDate [] (qFlags cT q1)).filter
      (fun e => Date.le e.1 d) =
      (dedupByDate [] (qFlags cT q2)).filter (fun e => Date.le e.1 d) := by
    rw [filter_dedupByDate (fun dt => decide (Date.le dt d)) (qFlags cT q1) [],
      filter_dedupByDate (fun dt => decide (Date.le dt d)) (qFlags cT q2) [],
      qFlags_filter_congr cT d q1 q2 hq hm1 hm2]
  have haca : (dedupByDate [] (aFlags aT a1)).filter
      (fun e => Date.le e.1 d) =
      (dedupByDate [] (aFlags aT a2)).filter (fun e => Date.le e.1 d) := by
    rw [filter_dedupByDate (fun dt => decide (Date.le dt d)) (aFlags aT a1) [],
      filter_dedupByDate (fun dt => decide (Date.le dt d)) (aFlags aT a2) [],
      aFlags_filter_congr aT d a1 a2 ha hma1 hma2]
  have hqd : ((dedupByDate [] (qFlags cT q1)).map
      (fun e => e.1)).filter (fun dt => Date.le dt d) =
      ((dedupByDate [] (qFlags cT q2)).map
        (fun e => e.1)).filter (fun dt => Date.le dt d) := by
    rw [List.filter_map, List.filter_map]
    have hcomp : ((fun dt : Date => decide (Date.le dt d)) ∘
        (fun e : Date × Bool => e.1)) =
        (fun e : Date × Bool => decide (Date.le e.1 d)) := rfl
    rw [hcomp, hqca]
  have had : ((dedupByDate [] (aFlags aT a1)).map
      (fun e => e.1)).filter (fun dt => Date.le dt d) =
      ((dedupByDate [] (aFlags aT a2)).map
        (fun e => e.1)).filter (fun dt => Date.le dt d) := by
    rw [List.filter_map, List.filter_map]
    have hcomp : ((fun dt : Date => decide (Date.le dt d)) ∘
        (fun e : Date × Bool => e.1)) =
        (fun e : Date × Bool => decide (Date.le e.1 d)) := rfl
    rw [hcomp, haca]
  unfold caOfTicker
  rw [List.filter_map, List.filter_map]
  have hpred : ∀ (qca aca : List (Date × Bool)),
      ((fun r : CARow => decide (Date.le r.endDate d)) ∘
        (fun dt => (⟨dt, lookupFlag qca dt, lookupFlag aca dt⟩ : CARow))) =
        (fun dt : Date => decide (Date.le dt d)) := fun _ _ => rfl
  rw [hpred, hpred, filter_insertionSort, filter_insertionSort,
    filter_dedup, filter_dedup, List.filter_append, List.filter_append,
    hqd, had]
  refine List.map_congr_left ?_
  intro dt hdt
  have hdt2 : Date.le dt d := by
    have h1 := (List.mem_insertionSort _).mp hdt
    have h2 := List.mem_dedup.mp h1
    rcases List.mem_append.mp h2 with h3 | h3
    · exact of_decide_eq_true (List.mem_filter.mp h3).2
    · exact of_decide_eq_true (List.mem_filter.mp h3).2
  have hc := lookupFlag_congr _ _ d dt hqca hdt2
  have hc2 := lookupFlag_congr _ _ d dt haca hdt2
  rw [hc, hc2]

/-- The merged rows dated on or before `d`, as a map over the filtered
NSLI rows. -/
theorem mergeCA_filter (d : Date) (rows : List NRow) (ca : List CARow) :
    (mergeCA rows ca).filter (fun r => Date.le r.date d) =
      (rows.filter (fun r => Date.le r.date d)).map (fun r =>
        (⟨r.date, r.stockRet, r.marketRet, r.n, r.s, r.l, r.i,
          cFlagOf ca r.date, aFlagOf ca r.date,
          cFlagOf ca r.date && aFlagOf ca r.date && r.n && r.s && r.l &&
            r.i⟩ : FRow)) := by
  unfold mergeCA
  rw [List.filter_map]
  have hcomp : ((fun fr : FRow => decide (Date.le fr.date d)) ∘
      (fun r : NRow =>
        (⟨r.date, r.stockRet, r.marketRet, r.n, r.s, r.l, r.i,
          cFlagOf ca r.date, aFlagOf ca r.date,
          cFlagOf ca r.date && aFlagOf ca r.date && r.n && r.s && r.l &&
            r.i⟩ : FRow))) =
      (fun r : NRow => decide (Date.le r.date d)) := rfl
  rw [hcomp]

/-- C1 (amended, no look-ahead): provided the filings have monotone end
dates along each year-over-year comparison group — within every
(ticker, fiscal_period) quarterly group in fiscal-year order, and within
the ticker's annual filings in fiscal-year order — two runs of the
indicator pipeline on inputs that agree on all price rows and filings dated
(reporting end-date for filings) on or before `d` produce identical values
of every derived indicator field (stock_return, market_return, N, S, L, I,
C, A, CANSLI_all, and M on the market rows) at every row dated on or
before `d`. -/
theorem C1_no_lookahead (cT aT : ℚ) (d : Date)
    (m1 m2 : List MBar) (s1 s2 : List SBar)
    (q1 q2 : List QRow) (a1 a2 : List ARow)
    (hm : m1.filter (fun b => Date.le b.date d) =
      m2.filter (fun b => Date.le b.date d))
    (hs : s1.filter (fun b => Date.le b.date d) =
      s2.filter (fun b => Date.le b.date d))
    (hq : q1.filter (fun r => Date.le r.endDate d) =
      q2.filter (fun r => Date.le r.endDate d))
    (ha : a1.filter (fun r => Date.le r.endDate d) =
      a2.filter (fun r => Date.le r.endDate d))
    (hqm1 : qGroupMonotone q1) (hqm2 : qGroupMonotone q2)
    (ham1 : aMonotone a1) (ham2 : aMonotone a2) :
    (enrichTicker cT aT m1 s1 q1 a1).filter (fun r => Date.le r.date d) =
      (enrichTicker cT aT m2 s2 q2 a2).filter (fun r => Date.le r.date d) ∧
    (calcM m1).filter (fun r => Date.le r.date d) =
      (calcM m2).filter (fun r => Date.le r.date d) := by
  refine ⟨?_, calcM_filter_congr m1 m2 d hm⟩
  have hca := caOfTicker_filter_congr cT aT d q1 q2 a1 a2 hq ha hqm1 hqm2
    ham1 ham2
  unfold enrichTicker
  rw [mergeCA_filter, mergeCA_filter,
    calcNSLI_filter_congr s1 s2 m1 m2 d hm hs]
  refine List.map_congr_left ?_
  intro r hr
  have hrd : Date.le r.date d := of_decide_eq_true (List.mem_filter.mp hr).2
  obtain ⟨hcf, haf⟩ := flagOf_congr (caOfTicker cT aT q1 a1)
    (caOfTicker cT aT q2 a2) d r.date hca hrd
  rw [hcf, haf]

/-- Witness for C1: two runs whose market rows, stock rows and filings
agree up to 2024-06-30 and differ afterwards. -/
theorem C1_witness :
    (([⟨⟨2024,1,2⟩, 100⟩, ⟨⟨2024,7,1⟩, 110⟩] : List MBar).filter
      (fun b => Date.le b.date ⟨2024,6,30⟩) =
     ([⟨⟨2024,1,2⟩, 100⟩, ⟨⟨2024,7,1⟩, 999⟩, ⟨⟨2024,8,1⟩, 50⟩] :
       List MBar).filter (fun b => Date.le b.date ⟨2024,6,30⟩)) ∧
    (([⟨⟨2024,1,2⟩, 10, 10, 100⟩, ⟨⟨2024,7,1⟩, 11, 12, 100⟩] :
       List SBar).filter (fun b => Date.le b.date ⟨2024,6,30⟩) =
     ([⟨⟨2024,1,2⟩, 10, 10, 100⟩, ⟨⟨2024,7,2⟩, 1, 2, 3⟩] :
       List SBar).filter (fun b => Date.le b.date ⟨2024,6,30⟩)) ∧
    (([⟨1, 2023, 1, ⟨2023,3,31⟩⟩, ⟨1, 2024, 2, ⟨2024,3,31⟩⟩] :
       List QRow).filter (fun r => Date.le r.endDate ⟨2024,6,30⟩) =
     ([⟨1, 2023, 1, ⟨2023,3,31⟩⟩, ⟨1, 2024, 2, ⟨2024,3,31⟩⟩,
       ⟨1, 2025, 5, ⟨2025,3,31⟩⟩] : List QRow).filter
      (fun r => Date.le r.endDate ⟨2024,6,30⟩)) ∧
    (([⟨2023, 1, ⟨2023,12,31⟩⟩] : List ARow).filter
      (fun r => Date.le r.endDate ⟨2024,6,30⟩) =
     ([⟨2023, 1, ⟨2023,12,31⟩⟩, ⟨2024, 3, ⟨2024,12,31⟩⟩] :
       List ARow).filter (fun r => Date.le r.endDate ⟨2024,6,30⟩)) ∧
    qGroupMonotone [⟨1, 2023, 1, ⟨2023,3,31⟩⟩, ⟨1, 2024, 2, ⟨2024,3,31⟩⟩] ∧
    qGroupMonotone [⟨1, 2023, 1, ⟨2023,3,31⟩⟩, ⟨1, 2024, 2, ⟨2024,3,31⟩⟩,
      ⟨1, 2025, 5, ⟨2025,3,31⟩⟩] ∧
    aMonotone [⟨2023, 1, ⟨2023,12,31⟩⟩] ∧
    aMonotone [⟨2023, 1, ⟨2023,12,31⟩⟩, ⟨2024, 3, ⟨2024,12,31⟩⟩] ∧
    ((enrichTicker (1/10) (1/10)
        [⟨⟨2024,1,2⟩, 100⟩, ⟨⟨2024,7,1⟩, 110⟩]
        [⟨⟨2024,1,2⟩, 10, 10, 100⟩, ⟨⟨2024,7,1⟩, 11, 12, 100⟩]
        [⟨1, 2023, 1, ⟨2023,3,31⟩⟩, ⟨1, 2024, 2, ⟨2024,3,31⟩⟩]
        [⟨2023, 1, ⟨2023,12,31⟩⟩]).filter
        (fun r => Date.le r.date ⟨2024,6,30⟩) =
      (enrichTicker (1/10) (1/10)
        [⟨⟨2024,1,2⟩, 100⟩, ⟨⟨2024,7,1⟩, 999⟩, ⟨⟨2024,8,1⟩, 50⟩]
        [⟨⟨2024,1,2⟩, 10, 10, 100⟩, ⟨⟨2024,7,2⟩, 1, 2, 3⟩]
        [⟨1, 2023, 1, ⟨2023,3,31⟩⟩, ⟨1, 2024, 2, ⟨2024,3,31⟩⟩,
         ⟨1, 2025, 5, ⟨2025,3,31⟩⟩]
        [⟨2023, 1, ⟨2023,12,31⟩⟩, ⟨2024, 3, ⟨2024,12,31⟩⟩]).filter
        (fun r => Date.le r.date ⟨2024,6,30⟩) ∧
      (calcM [⟨⟨2024,1,2⟩, 100⟩, ⟨⟨2024,7,1⟩, 110⟩]).filter
        (fun r => Date.le r.date ⟨2024,6,30⟩) =
      (calcM [⟨⟨2024,1,2⟩, 100⟩, ⟨⟨2024,7,1⟩, 999⟩, ⟨⟨2024,8,1⟩, 50⟩]).filter
        (fun r => Date.le r.date ⟨2024,6,30⟩)) :=
  ⟨by decide, by decide, by decide, by decide, by decide, by decide,
   by decide, by decide,
   C1_no_lookahead (1/10) (1/10) ⟨2024,6,30⟩ _ _ _ _ _ _ _ _
     (by decide) (by decide) (by decide) (by decide) (by decide)
     (by decide) (by decide) (by decide)⟩

/-- Counterexample to claim C1 as stated (without the end-date
monotonicity requirement): two quarterly filing sets that agree on every
filing with end date on or before 2021-04-01 — they differ only in the EPS
of a filing reported 2022-06-30 — give different C values to the price row
dated 2021-04-01, because the 2022-06-30 filing carries an *earlier* fiscal
year than the 2021-03-31 filing and therefore serves as its year-over-year
comparison base. -/
theorem C1_counterexample :
    (([⟨1, 2020, 1, ⟨2022,6,30⟩⟩, ⟨1, 2021, 2, ⟨2021,3,31⟩⟩] :
       List QRow).filter (fun r => Date.le r.endDate ⟨2021,4,1⟩) =
     ([⟨1, 2020, 2, ⟨2022,6,30⟩⟩, ⟨1, 2021, 2, ⟨2021,3,31⟩⟩] :
       List QRow).filter (fun r => Date.le r.endDate ⟨2021,4,1⟩)) ∧
    (((enrichTicker (1/10) (1/10)
        [⟨⟨2021,3,31⟩, 100⟩, ⟨⟨2021,4,1⟩, 101⟩]
        [⟨⟨2021,3,31⟩, 10, 10, 1000⟩, ⟨⟨2021,4,1⟩, 10, 11, 1000⟩]
        [⟨1, 2020, 1, ⟨2022,6,30⟩⟩, ⟨1, 2021, 2, ⟨2021,3,31⟩⟩]
        []).filter (fun r => r.date = ⟨2021,4,1⟩)).map (fun r => r.c) =
      [true]) ∧
    (((enrichTicker (1/10) (1/10)
        [⟨⟨2021,3,31⟩, 100⟩, ⟨⟨2021,4,1⟩, 101⟩]
        [⟨⟨2021,3,31⟩, 10, 10, 1000⟩, ⟨⟨2021,4,1⟩, 10, 11, 1000⟩]
        [⟨1, 2020, 2, ⟨2022,6,30⟩⟩, ⟨1, 2021, 2, ⟨2021,3,31⟩⟩]
        []).filter (fun r => r.date = ⟨2021,4,1⟩)).map (fun r => r.c) =
      [false]) := by
  refine ⟨by decide, ?_, ?_⟩ <;>
    norm_num +decide [enrichTicker, mergeCA, calcNSLI, caOfTicker, qFlags,
      aFlags, yoyFlags, dedupByDate, growthOk, mapState, lookupFlag,
      cFlagOf, aFlagOf, asofCA, buildNRows, marketReturns, mretStep,
      marketRetOn, rollMax, rollMean, rollWindows, pctChangeFilled,
      FVal.fsub, FVal.fdiv, FVal.fabs, FVal.fge, FVal.fgt, FVal.fillZero,
      List.insertionSort, List.orderedInsert, List.dedup, List.flatMap,
      List.find?, List.foldl]

end Canslim
